import Mathlib

/-!
# HotStuff core of `leap`: heights, quorum certificates, proposal store,
test pacemaker, account name generator

A shallow embedding of `libraries/chain/include/eosio/chain/hotstuff.hpp`,
`libraries/hotstuff/include/eosio/hotstuff/qc_chain.hpp`,
`libraries/chain/hotstuff/test/test_pacemaker.hpp` and
`tests/trx_generator/trx_generator.hpp`.

Machine integers are natural numbers; every place where the C++ type cuts a
value down to its width carries an explicit `% 2 ^ w`.
-/

/-! ## Definitions -/

namespace boost

/-- The class `boost::dynamic_bitset<Block>` with `w` bits per block: the block
vector `m_bits` (bit `i` of the set is bit `i % w` of block `i / w`) and the
number of bits `m_num_bits`. -/
structure dynamic_bitset (w : Nat) where
  m_bits : List Nat
  m_num_bits : Nat
deriving DecidableEq, Repr

namespace dynamic_bitset

variable {w : Nat}

/-- The default constructor: no blocks, no bits. -/
def empty_set : dynamic_bitset w := ⟨[], 0⟩

/-- The static `calc_num_blocks`:
`num_bits / bits_per_block + (num_bits % bits_per_block != 0)`. -/
def calc_num_blocks (w num_bits : Nat) : Nat :=
  num_bits / w + (if num_bits % w != 0 then 1 else 0)

/-- The member `size()`. -/
def size (bs : dynamic_bitset w) : Nat := bs.m_num_bits

/-- The member `num_blocks()`. -/
def num_blocks (bs : dynamic_bitset w) : Nat := bs.m_bits.length

/-- The member `empty()`: `size() == 0`. -/
def empty (bs : dynamic_bitset w) : Bool := bs.size == 0

/-- The member `count_extra_bits()`: `size() % bits_per_block`. -/
def count_extra_bits (bs : dynamic_bitset w) : Nat := bs.m_num_bits % w

/-- The member `m_highest_block()`: the last block (0 when there is none). -/
def m_highest_block (bs : dynamic_bitset w) : Nat := bs.m_bits.getLast?.getD 0

/-- The member `m_zero_unused_bits()`: when there are extra bits, the highest
block is and-ed with `(Block(1) << extra_bits) - 1`. -/
def m_zero_unused_bits (bs : dynamic_bitset w) : dynamic_bitset w :=
  if bs.count_extra_bits != 0 then
    match bs.m_bits.getLast? with
    | some hb =>
      { bs with
        m_bits := bs.m_bits.dropLast ++ [hb &&& (((1 <<< bs.count_extra_bits) % 2 ^ w) - 1)] }
    | none => bs
  else bs

/-- The call `std::vector::resize(n, v)` on the block vector. -/
def vector_resize (l : List Nat) (n v : Nat) : List Nat :=
  l.take n ++ List.replicate (n - l.length) v

/-- The member `resize(num_bits)` with the default fill value `false`. -/
def resize (bs : dynamic_bitset w) (num_bits : Nat) : dynamic_bitset w :=
  let required_blocks := calc_num_blocks w num_bits
  let bits :=
    if required_blocks != bs.num_blocks then vector_resize bs.m_bits required_blocks 0
    else bs.m_bits
  m_zero_unused_bits { m_bits := bits, m_num_bits := num_bits }

/-- The constructor `dynamic_bitset(num_bits)` (initial value 0), through
`init_from_unsigned_long`: `calc_num_blocks(num_bits)` zero blocks. -/
def init_from_unsigned_long (w num_bits : Nat) : dynamic_bitset w :=
  { m_bits := vector_resize [] (calc_num_blocks w num_bits) 0, m_num_bits := num_bits }

/-- The constructor `dynamic_bitset(first, last)` over a range of blocks, through
`m_init_from_block_range`: the blocks are appended and the size is
`m_bits.size() * bits_per_block`. Each element is converted to the block type. -/
def m_init_from_block_range (w : Nat) (blocks : List Nat) : dynamic_bitset w :=
  let bits := blocks.map (fun b => b % 2 ^ w)
  { m_bits := bits, m_num_bits := bits.length * w }

/-- The function `to_block_range(b, result)`: `std::copy` of the blocks over the
output range starting at the first element of `r`. -/
def to_block_range (bs : dynamic_bitset w) (r : List Nat) : List Nat :=
  bs.m_bits ++ r.drop bs.m_bits.length

/-- The member `m_unchecked_test(pos)`:
`(m_bits[block_index(pos)] & bit_mask(pos)) != 0`. -/
def m_unchecked_test (bs : dynamic_bitset w) (pos : Nat) : Bool :=
  (bs.m_bits.getD (pos / w) 0) &&& (1 <<< (pos % w)) != 0

/-- The member `test(pos)`, which asserts `pos < m_num_bits`. -/
def test (bs : dynamic_bitset w) (pos : Nat) : Option Bool :=
  if pos < bs.m_num_bits then some (bs.m_unchecked_test pos) else none

/-- The function `to_string(b, s)`: `size()` characters, character
`len - 1 - i` being `'1'` when bit `i` is set and `'0'` otherwise. -/
def to_string (bs : dynamic_bitset w) : List Char :=
  (List.range bs.size).reverse.map (fun i => if bs.m_unchecked_test i then '1' else '0')

/-- The member `m_check_invariants()`: the extra bits of the highest block are
zero and `num_blocks() == calc_num_blocks(size())`. -/
def m_check_invariants (bs : dynamic_bitset w) : Bool :=
  (if bs.count_extra_bits > 0 then
      bs.m_highest_block &&& (((2 ^ w - 1) <<< bs.count_extra_bits) % 2 ^ w) == 0
    else true)
  && bs.num_blocks == calc_num_blocks w bs.size

/-- A well-formed bitset: every block fits the block type and the class
invariant `m_check_invariants()` holds. -/
def wf (bs : dynamic_bitset w) : Prop :=
  (∀ b ∈ bs.m_bits, b < 2 ^ w) ∧ bs.m_check_invariants = true

instance (bs : dynamic_bitset w) : Decidable bs.wf := by
  unfold wf; infer_instance

end dynamic_bitset

end boost

namespace eosio.chain

open boost

/-- The `fc::sha256` value type: a digest held as its sequence of bytes. -/
structure sha256 where
  data : List Nat
deriving DecidableEq, Repr

/-- The `block_id_type` of the chain library is an `fc::sha256`. -/
abbrev block_id_type := sha256

/-- The constant `NULL_PROPOSAL_ID = fc::sha256("00")`: the all-zero digest. -/
def NULL_PROPOSAL_ID : sha256 := ⟨List.replicate 32 0⟩

/-- The constant `NULL_BLOCK_ID = block_id_type("00")`: the all-zero digest. -/
def NULL_BLOCK_ID : block_id_type := ⟨List.replicate 32 0⟩

/-- The `fc::crypto::blslib::bls_signature` value type, held as its encoding.
The default-constructed signature is the empty encoding. -/
structure bls_signature where
  sig : List Nat
deriving DecidableEq, Repr

/-- The default constructor `bls_signature()`. -/
def bls_signature.default : bls_signature := ⟨[]⟩

/-- The function `compute_height` of `hotstuff.hpp`:
`(uint64_t{block_height} << 32) | phase_counter`, the shift taken in 64 bits. -/
def compute_height (block_height phase_counter : Nat) : Nat :=
  ((block_height <<< 32) % 2 ^ 64) ||| phase_counter

/-- Modelled from the spec: `block_header::num_from_id`, declared in
`block_header.hpp` which is not among the sources; "its leading 32 bits are the
block height", read as the big-endian value of the first four bytes. -/
def num_from_id (id : block_id_type) : Nat :=
  (id.data.getD 0 0 % 256) * 2 ^ 24 + (id.data.getD 1 0 % 256) * 2 ^ 16
    + (id.data.getD 2 0 % 256) * 2 ^ 8 + (id.data.getD 3 0 % 256)

/-- The struct `eosio::chain::quorum_certificate` of `hotstuff.hpp`, whose
bitset is kept as a string of `'0'` and `'1'`. -/
structure quorum_certificate where
  proposal_id : sha256
  active_finalizers : List Char
  active_agg_sig : bls_signature
  quorum_met : Bool
deriving DecidableEq, Repr

namespace quorum_certificate

/-- The member `reset(proposal, finalizer_size)`: a default bitset (64-bit
blocks) resized to `finalizer_size` and written out as a string. -/
def reset (_q : quorum_certificate) (proposal : sha256) (finalizer_size : Nat) :
    quorum_certificate :=
  let b : dynamic_bitset 64 := dynamic_bitset.empty_set
  let b := b.resize finalizer_size
  { proposal_id := proposal
    active_finalizers := b.to_string
    active_agg_sig := bls_signature.default
    quorum_met := false }

/-- The constructor `quorum_certificate(finalizer_size = 0)`: the member
initialisers followed by `reset(NULL_PROPOSAL_ID, finalizer_size)`. -/
def init (finalizer_size : Nat) : quorum_certificate :=
  reset ⟨NULL_PROPOSAL_ID, [], bls_signature.default, false⟩ NULL_PROPOSAL_ID finalizer_size

/-- The member `get_active_finalizers_string()`. -/
def get_active_finalizers_string (q : quorum_certificate) : List Char := q.active_finalizers

/-- The member `get_proposal_id()`. -/
def get_proposal_id (q : quorum_certificate) : sha256 := q.proposal_id

/-- The member `get_active_agg_sig()`. -/
def get_active_agg_sig (q : quorum_certificate) : bls_signature := q.active_agg_sig

/-- The member `set_active_agg_sig(sig)`. -/
def set_active_agg_sig (q : quorum_certificate) (sig : bls_signature) : quorum_certificate :=
  { q with active_agg_sig := sig }

/-- The member `is_quorum_met()`. -/
def is_quorum_met (q : quorum_certificate) : Bool := q.quorum_met

/-- The member `set_quorum_met()`. -/
def set_quorum_met (q : quorum_certificate) : quorum_certificate :=
  { q with quorum_met := true }

/-- The members named by `FC_REFLECT(eosio::chain::quorum_certificate, ...)`:
`(proposal_id)(active_finalizers)(active_agg_sig)`, which is what serialization
visits. -/
def reflected_members (q : quorum_certificate) : sha256 × List Char × bls_signature :=
  (q.proposal_id, q.active_finalizers, q.active_agg_sig)

end quorum_certificate

/-- The struct `hs_proposal_message`; `phase_counter` is a `uint8_t`. -/
structure hs_proposal_message where
  proposal_id : sha256
  block_id : block_id_type
  parent_id : sha256
  final_on_qc : sha256
  justify : quorum_certificate
  phase_counter : Nat
deriving DecidableEq, Repr

namespace hs_proposal_message

/-- The member `block_num()`. -/
def block_num (p : hs_proposal_message) : Nat := num_from_id p.block_id

/-- The member `get_height()`. -/
def get_height (p : hs_proposal_message) : Nat :=
  compute_height (num_from_id p.block_id) p.phase_counter

end hs_proposal_message

end eosio.chain

namespace eosio.hotstuff

open boost eosio.chain

/-- The bitset type of the hotstuff library: 32-bit blocks, as the block vector
`std::vector<unsigned_int>` of `to_msg` shows. -/
abbrev hs_bitset := dynamic_bitset 32

/-- The struct `quorum_certificate_message` that `to_msg` fills in:
`proposal_id`, the bitset as a vector of `unsigned_int` blocks, and the
aggregated signature. -/
structure quorum_certificate_message where
  proposal_id : sha256
  active_finalizers : List Nat
  active_agg_sig : bls_signature
deriving DecidableEq, Repr

/-- The class `eosio::hotstuff::quorum_certificate` of `qc_chain.hpp`. -/
structure quorum_certificate where
  proposal_id : sha256
  active_finalizers : hs_bitset
  active_agg_sig : bls_signature
  quorum_met : Bool
deriving DecidableEq, Repr

namespace quorum_certificate

/-- The constructor `quorum_certificate(finalizer_size = 0)`: default members,
then `active_finalizers.resize(finalizer_size)`. -/
def init (finalizer_size : Nat) : quorum_certificate :=
  { proposal_id := ⟨List.replicate 32 0⟩
    active_finalizers := (dynamic_bitset.empty_set : hs_bitset).resize finalizer_size
    active_agg_sig := bls_signature.default
    quorum_met := false }

/-- The constructor `quorum_certificate(const quorum_certificate_message&)`;
`quorum_met` keeps its member initialiser `false`. -/
def of_msg (msg : quorum_certificate_message) : quorum_certificate :=
  { proposal_id := msg.proposal_id
    active_finalizers := dynamic_bitset.m_init_from_block_range 32 msg.active_finalizers
    active_agg_sig := msg.active_agg_sig
    quorum_met := false }

/-- The member `to_msg()`: a vector resized to `num_blocks()` and filled by
`to_block_range`. -/
def to_msg (q : quorum_certificate) : quorum_certificate_message :=
  { proposal_id := q.proposal_id
    active_finalizers :=
      let r := dynamic_bitset.vector_resize [] q.active_finalizers.num_blocks 0
      q.active_finalizers.to_block_range r
    active_agg_sig := q.active_agg_sig }

/-- The member `reset(proposal, finalizer_size)`. -/
def reset (q : quorum_certificate) (proposal : sha256) (finalizer_size : Nat) :
    quorum_certificate :=
  { q with
    proposal_id := proposal
    active_finalizers := dynamic_bitset.init_from_unsigned_long 32 finalizer_size
    active_agg_sig := bls_signature.default
    quorum_met := false }

/-- The member `get_active_finalizers()`, which asserts the bitset non-empty. -/
def get_active_finalizers (q : quorum_certificate) : Option hs_bitset :=
  if !q.active_finalizers.empty then some q.active_finalizers else none

/-- The member `set_active_finalizers(bs)`, which asserts `bs` non-empty. -/
def set_active_finalizers (q : quorum_certificate) (bs : hs_bitset) :
    Option quorum_certificate :=
  if !bs.empty then some { q with active_finalizers := bs } else none

/-- The member `get_active_finalizers_string()`. -/
def get_active_finalizers_string (q : quorum_certificate) : List Char :=
  q.active_finalizers.to_string

/-- The member `get_proposal_id()`. -/
def get_proposal_id (q : quorum_certificate) : sha256 := q.proposal_id

/-- The member `get_active_agg_sig()`. -/
def get_active_agg_sig (q : quorum_certificate) : bls_signature := q.active_agg_sig

/-- The member `set_active_agg_sig(sig)`. -/
def set_active_agg_sig (q : quorum_certificate) (sig : bls_signature) : quorum_certificate :=
  { q with active_agg_sig := sig }

/-- The member `is_quorum_met()`. -/
def is_quorum_met (q : quorum_certificate) : Bool := q.quorum_met

/-- The member `set_quorum_met()`. -/
def set_quorum_met (q : quorum_certificate) : quorum_certificate :=
  { q with quorum_met := true }

end quorum_certificate

/-- The container `proposal_store_type`: a `multi_index_container` of
`hs_proposal_message` with a unique index on `proposal_id` and a non-unique
ordered index on `get_height()`; held as the stored proposals in insertion
order. -/
abbrev proposal_store_type := List hs_proposal_message

/-- The data members of the class `qc_chain` that make up the replica state. -/
structure qc_chain where
  _chained_mode : Bool
  _block_exec : block_id_type
  _pending_proposal_block : block_id_type
  _b_leaf : sha256
  _b_lock : sha256
  _b_exec : sha256
  _b_finality_violation : sha256
  _high_qc : quorum_certificate
  _current_qc : quorum_certificate
  _v_height : Nat
  _proposal_store : proposal_store_type
deriving DecidableEq, Repr

namespace qc_chain

/-- The lookup `_proposal_store.get<by_proposal_id>().find(proposal_id)`. -/
def find_by_proposal_id (store : proposal_store_type) (proposal_id : sha256) :
    Option hs_proposal_message :=
  store.find? (fun q => q.proposal_id == proposal_id)

/-- Modelled from the spec: `qc_chain::insert_proposal`, declared in
`qc_chain.hpp` and defined in `qc_chain.cpp`, which is not among the sources;
"Unique index by `proposal_id` (rejects duplicates; `insert_proposal` returns
false on clash)". The result is the returned flag and the state afterwards. -/
def insert_proposal (s : qc_chain) (proposal : hs_proposal_message) : Bool × qc_chain :=
  match find_by_proposal_id s._proposal_store proposal.proposal_id with
  | some _ => (false, s)
  | none => (true, { s with _proposal_store := s._proposal_store ++ [proposal] })

/-- A run of `insert_proposal` calls, one per proposal of the list, in order. -/
def insert_proposals (s : qc_chain) (proposals : List hs_proposal_message) : qc_chain :=
  proposals.foldl (fun st p => (insert_proposal st p).2) s

/-- Modelled from the spec: the vote rule of `qc_chain::process_proposal`,
defined in `qc_chain.cpp`, which is not among the sources; "If `safe(p)` and
`p.get_height() > v_height`, the replica ... signs `p` and emits a vote;
`v_height ← p.get_height()`". The flag `node_safe` is the outcome of
`is_node_safe(p)`; the assignment stores the `uint64_t` height in the
`uint32_t` member `_v_height`. -/
def vote_rule_update (s : qc_chain) (node_safe : Bool) (p : hs_proposal_message) : qc_chain :=
  if node_safe && decide (p.get_height > s._v_height) then
    { s with _v_height := p.get_height % 2 ^ 32 }
  else s

/-- A run of `vote_rule_update` over handled proposals, each with the outcome of
its safe-node check. -/
def vote_rule_updates (s : qc_chain) (handled : List (Bool × hs_proposal_message)) : qc_chain :=
  handled.foldl (fun st h => vote_rule_update st h.1 h.2) s

end qc_chain

/-! ### Concrete values used as instances -/

/-- A replica state as the member initialisers leave it: `_v_height = 0`, an
empty proposal store, default certificates. -/
def example_replica : qc_chain :=
  { _chained_mode := false
    _block_exec := NULL_BLOCK_ID
    _pending_proposal_block := NULL_BLOCK_ID
    _b_leaf := NULL_PROPOSAL_ID
    _b_lock := NULL_PROPOSAL_ID
    _b_exec := NULL_PROPOSAL_ID
    _b_finality_violation := NULL_PROPOSAL_ID
    _high_qc := quorum_certificate.init 0
    _current_qc := quorum_certificate.init 0
    _v_height := 0
    _proposal_store := [] }

/-- A proposal on the block whose id starts with the bytes `00 00 00 01`
(block number 1), at phase 2. -/
def example_proposal_1_2 : hs_proposal_message :=
  { proposal_id := ⟨[1, 2]⟩
    block_id := ⟨[0, 0, 0, 1, 7, 7]⟩
    parent_id := NULL_PROPOSAL_ID
    final_on_qc := NULL_PROPOSAL_ID
    justify := eosio.chain.quorum_certificate.init 0
    phase_counter := 2 }

/-- A proposal on the block whose id starts with the bytes `00 00 00 02`
(block number 2), at phase 0. -/
def example_proposal_2_0 : hs_proposal_message :=
  { proposal_id := ⟨[2, 0]⟩
    block_id := ⟨[0, 0, 0, 2, 8, 8]⟩
    parent_id := ⟨[1, 2]⟩
    final_on_qc := NULL_PROPOSAL_ID
    justify := eosio.chain.quorum_certificate.init 0
    phase_counter := 0 }

/-- A certificate over five finalizers in which finalizers 0 and 3 have voted. -/
def example_qc_5 : quorum_certificate :=
  { proposal_id := ⟨[1, 2]⟩
    active_finalizers := ⟨[9], 5⟩
    active_agg_sig := ⟨[4, 2]⟩
    quorum_met := true }

end eosio.hotstuff

namespace eosio.hotstuff.qc_chain

/-- The enumeration `qc_chain::msg_type`. -/
inductive msg_type where
  | new_view
  | new_block
  | qc
  | vote
deriving DecidableEq, Repr

/-- The value each enumerator of `msg_type` is given in its declaration. -/
def msg_type.value : msg_type → Nat
  | .new_view => 1
  | .new_block => 2
  | .qc => 3
  | .vote => 4

end eosio.hotstuff.qc_chain

namespace eosio.chain

/-- The type `name`: an account name, a 64-bit value. -/
abbrev name := Nat

/-- The struct `finalizer_state` of `hotstuff.hpp`; `proposals` is a `std::map`,
held as an association list with distinct keys. The member `schedule`, whose
types are declared outside these sources, is left out. -/
structure finalizer_state where
  chained_mode : Bool
  b_leaf : sha256
  b_lock : sha256
  b_exec : sha256
  b_finality_violation : sha256
  block_exec : block_id_type
  pending_proposal_block : block_id_type
  v_height : Nat
  high_qc : quorum_certificate
  current_qc : quorum_certificate
  proposals : AList (fun _ : sha256 => hs_proposal_message)

/-- The member `finalizer_state::get_proposal(id)`: `proposals.find(id)`, the
null pointer when the iterator is `end()`, the mapped proposal otherwise. -/
def finalizer_state.get_proposal (fs : finalizer_state) (id : sha256) :
    Option hs_proposal_message :=
  match fs.proposals.lookup id with
  | none => none
  | some p => some p

/-- The data members of the class `test_pacemaker` that the activation set is
made of, with the role and threshold members: `_qcc_store` maps the id of each
registered `qc_chain` to it, `_qcc_deactivated` is the set of deactivated ids. -/
structure test_pacemaker where
  _qcc_store : AList (fun _ : name => eosio.hotstuff.qc_chain)
  _qcc_deactivated : Finset name
  _proposer : name
  _leader : name
  _next_leader : name
  _quorum_threshold : Nat

/-- The member `is_qc_chain_active(qcc_name)`:
`_qcc_deactivated.find(qcc_name) == _qcc_deactivated.end()`. -/
def test_pacemaker.is_qc_chain_active (tp : test_pacemaker) (qcc_name : name) : Bool :=
  decide (qcc_name ∉ tp._qcc_deactivated)

/-- A test pacemaker with no registered replica and nothing deactivated. -/
def example_pacemaker : test_pacemaker :=
  { _qcc_store := ∅
    _qcc_deactivated := ∅
    _proposer := 0
    _leader := 0
    _next_leader := 0
    _quorum_threshold := 15 }

end eosio.chain

namespace eosio.testing

/-- The struct `account_name_generator` of `trx_generator.hpp`: the vector
`_name_index_vec` of indices into `char_map`, one per character of the name. -/
structure account_name_generator where
  _name_index_vec : List Int
deriving DecidableEq, Repr

namespace account_name_generator

/-- The array `char_map[] = "12345abcdefghijklmnopqrstuvwxyz"`: the 31
characters and the terminating NUL. -/
def char_map : List Char := "12345abcdefghijklmnopqrstuvwxyz".toList ++ [Char.ofNat 0]

/-- The constant `acct_name_char_cnt = sizeof(char_map) - 1`. -/
def acct_name_char_cnt : Int := (char_map.length : Int) - 1

/-- The constant `acct_name_len = 12`. -/
def acct_name_len : Nat := 12

/-- The constant `prefix_max = 960`. -/
def prefix_max : Int := 960

/-- The constructor: `_name_index_vec(acct_name_len, 0)`. -/
def init : account_name_generator := ⟨List.replicate acct_name_len 0⟩

/-- The recursion of the private member `increment(int index)` on the index
vector; `increment_from n vec` is the call `increment(n - 1)`. The call
`increment(-1)` (`n = 0`) indexes the vector out of range at once, and so does
a call with an index at or past the end; the error value is the position of
the out-of-range access. -/
def increment_from : Nat → List Int → Except Int (List Int)
  | 0, _ => .error (-1)
  | n + 1, vec =>
    if n < vec.length then
      let v := vec.getD n 0 + 1
      if v ≥ acct_name_char_cnt then increment_from n (vec.set n 0)
      else .ok (vec.set n v)
    else .error n

/-- The private member `increment(int index)`. -/
def increment_index (g : account_name_generator) (index : Int) :
    Except Int account_name_generator :=
  if index < -1 then .error index
  else (increment_from (index + 1).toNat g._name_index_vec).map account_name_generator.mk

/-- The member `increment()`: `increment(_name_index_vec.size() - 1)`. -/
def increment (g : account_name_generator) : Except Int account_name_generator :=
  g.increment_index ((g._name_index_vec.length : Int) - 1)

/-- The member `incrementPrefix()`: `increment(1)`. -/
def incrementPrefix (g : account_name_generator) : Except Int account_name_generator :=
  g.increment_index 1

/-- The loop of `setPrefix`: `n` calls of `incrementPrefix()` in a row. -/
def incrementPrefix_loop : Nat → account_name_generator → Except Int account_name_generator
  | 0, g => .ok g
  | n + 1, g =>
    match g.incrementPrefix with
    | .ok g1 => incrementPrefix_loop n g1
    | .error e => .error e

/-- The member `setPrefix(generator_id)`: nothing but a log line above
`prefix_max`; otherwise the first two indices are zeroed and `incrementPrefix()`
runs `generator_id` times. -/
def setPrefix (g : account_name_generator) (generator_id : Int) :
    Except Int account_name_generator :=
  if generator_id > prefix_max then .ok g
  else if g._name_index_vec.length < 2 then .error g._name_index_vec.length
  else incrementPrefix_loop generator_id.toNat ⟨(g._name_index_vec.set 0 0).set 1 0⟩

/-- The read `char_map[i]`: defined inside the 32-entry array only. -/
def char_map_at (i : Int) : Option Char :=
  if 0 ≤ i ∧ i < char_map.length then char_map[i.toNat]? else none

/-- The loop of `calc_name`: `name += char_map[i]` for each index in turn. -/
def calc_name_loop : List Int → Option (List Char)
  | [] => some []
  | i :: rest =>
    match char_map_at i, calc_name_loop rest with
    | some c, some s => some (c :: s)
    | _, _ => none

/-- The member `calc_name()`. -/
def calc_name (g : account_name_generator) : Option (List Char) :=
  calc_name_loop g._name_index_vec

/-- A run of `k` calls of `increment()`. -/
def increments : Nat → account_name_generator → Except Int account_name_generator
  | 0, g => .ok g
  | k + 1, g =>
    match g.increment with
    | .ok g1 => increments k g1
    | .error e => .error e

/-- The `n` base-31 digits of `k`, most significant first. -/
def digitsBE : Nat → Nat → List Int
  | 0, _ => []
  | n + 1, k => digitsBE n (k / 31) ++ [((k % 31 : Nat) : Int)]

/-- The state invariant: every index is in `[0, 31)`. -/
def in_range (g : account_name_generator) : Prop :=
  ∀ d ∈ g._name_index_vec, 0 ≤ d ∧ d < acct_name_char_cnt

instance (g : account_name_generator) : Decidable g.in_range := by
  unfold in_range; infer_instance

/-- The name a parallel generator hands out: a fresh generator, then
`setPrefix(generator_id)`, then `k` calls of `increment()`, read by
`calc_name()`; nothing when a step runs out of range. -/
def generated_name (generator_id : Int) (k : Nat) : Option (List Char) :=
  match init.setPrefix generator_id with
  | .ok g =>
    match increments k g with
    | .ok g1 => g1.calc_name
    | .error _ => none
  | .error _ => none

end account_name_generator

end eosio.testing

namespace boost.dynamic_bitset

variable {w : Nat}

/-- The member `set(pos)`: `m_bits[block_index(pos)] |= bit_mask(pos)`. -/
def set (bs : dynamic_bitset w) (pos : Nat) : dynamic_bitset w :=
  { bs with
    m_bits := bs.m_bits.set (pos / w) ((bs.m_bits.getD (pos / w) 0) ||| (1 <<< (pos % w))) }

/-- The loop of `init_from_string`: step `i` reads the character
`s[m - 1 - i]`, here the head of the reversed string, asserts that it is `'0'`
or `'1'`, and sets bit `i` when it is `'1'`. -/
def init_from_string_loop : List Char → Nat → dynamic_bitset w → Option (dynamic_bitset w)
  | [], _, bs => some bs
  | c :: cs, i, bs =>
    if c = '1' then init_from_string_loop cs (i + 1) (bs.set i)
    else if c = '0' then init_from_string_loop cs (i + 1) bs
    else none

/-- The constructor `dynamic_bitset(s)` from a string, through
`init_from_string`: `calc_num_blocks(s.size())` zero blocks, `s.size()` bits,
then the loop over the characters from the last to the first. -/
def init_from_string (w : Nat) (s : List Char) : Option (dynamic_bitset w) :=
  init_from_string_loop s.reverse 0
    { m_bits := vector_resize [] (calc_num_blocks w s.length) 0, m_num_bits := s.length }

/-- The content of a bitset as its users see it: the bits at the positions
`0 .. size() - 1`, in order. -/
def bit_list (bs : dynamic_bitset w) : List Bool :=
  (List.range bs.size).map bs.m_unchecked_test

end boost.dynamic_bitset

namespace eosio.chain.quorum_certificate

open boost

/-- The member `get_active_finalizers()` of the string-backed certificate: it
asserts the string non-empty and builds a bitset (64-bit blocks) from it. -/
def get_active_finalizers (q : quorum_certificate) : Option (dynamic_bitset 64) :=
  if !q.active_finalizers.isEmpty then dynamic_bitset.init_from_string 64 q.active_finalizers
  else none

/-- The member `set_active_finalizers(bs)` of the string-backed certificate,
for a bitset of any block type: it asserts `bs` non-empty and stores
`to_string(bs)`. -/
def set_active_finalizers {w : Nat} (q : quorum_certificate) (bs : dynamic_bitset w) :
    Option quorum_certificate :=
  if !bs.empty then some { q with active_finalizers := bs.to_string } else none

end eosio.chain.quorum_certificate

namespace eosio.hotstuff

open boost eosio.chain

/-- A call of one of the mutating members that both `quorum_certificate`
classes have, with its arguments. -/
inductive qc_call where
  | reset (proposal : sha256) (finalizer_size : Nat)
  | set_active_finalizers (bs : hs_bitset)
  | set_active_agg_sig (sig : bls_signature)
  | set_quorum_met
deriving DecidableEq, Repr

/-- A call is a setter call that passes its own assertion: not a `reset`, and
for `set_active_finalizers` the bitset is non-empty. -/
def qc_call.is_setter : qc_call → Bool
  | .reset _ _ => false
  | .set_active_finalizers bs => !bs.empty
  | .set_active_agg_sig _ => true
  | .set_quorum_met => true

/-- A call both classes can take: for `reset` the size is a value of both
parameter types (`uint32_t` and `size_t`), for `set_active_finalizers` the
bitset is non-empty. -/
def qc_call.is_admissible : qc_call → Bool
  | .reset _ finalizer_size => decide (finalizer_size < 2 ^ 32)
  | .set_active_finalizers bs => !bs.empty
  | .set_active_agg_sig _ => true
  | .set_quorum_met => true

/-- One call on the bitset-backed certificate; nothing when an assertion of the
member fails. -/
def quorum_certificate.call (q : quorum_certificate) : qc_call → Option quorum_certificate
  | .reset proposal finalizer_size => some (q.reset proposal finalizer_size)
  | .set_active_finalizers bs => q.set_active_finalizers bs
  | .set_active_agg_sig sig => some (q.set_active_agg_sig sig)
  | .set_quorum_met => some q.set_quorum_met

/-- A sequence of calls on the bitset-backed certificate, in order. -/
def quorum_certificate.calls : quorum_certificate → List qc_call → Option quorum_certificate
  | q, [] => some q
  | q, c :: cs =>
    match q.call c with
    | some q1 => quorum_certificate.calls q1 cs
    | none => none

/-- One call on the string-backed certificate; nothing when an assertion of the
member fails. The size argument of `reset` is converted to the parameter type
`uint32_t` of this class. -/
def chain_call (q : eosio.chain.quorum_certificate) :
    qc_call → Option eosio.chain.quorum_certificate
  | .reset proposal finalizer_size => some (q.reset proposal (finalizer_size % 2 ^ 32))
  | .set_active_finalizers bs => q.set_active_finalizers bs
  | .set_active_agg_sig sig => some (q.set_active_agg_sig sig)
  | .set_quorum_met => some q.set_quorum_met

/-- A sequence of calls on the string-backed certificate, in order. -/
def chain_calls :
    eosio.chain.quorum_certificate → List qc_call → Option eosio.chain.quorum_certificate
  | q, [] => some q
  | q, c :: cs =>
    match chain_call q c with
    | some q1 => chain_calls q1 cs
    | none => none

/-- Construction of the string-backed certificate with a size argument, which
is converted to the parameter type `uint32_t` of its constructor. -/
def chain_construct (finalizer_size : Nat) : eosio.chain.quorum_certificate :=
  eosio.chain.quorum_certificate.init (finalizer_size % 2 ^ 32)

/-- A bitset over five finalizers in which finalizers 0 and 3 are set. -/
def example_bitset_5 : hs_bitset := ⟨[9], 5⟩

/-- A sequence of calls of all four members. -/
def example_calls : List qc_call :=
  [.set_quorum_met, .set_active_finalizers example_bitset_5, .reset ⟨[7]⟩ 40,
    .set_active_agg_sig ⟨[4, 2]⟩, .set_active_finalizers ⟨[1, 2], 34⟩, .set_quorum_met]

/-- A sequence of setter calls. -/
def example_setter_calls : List qc_call :=
  [.set_quorum_met, .set_active_finalizers example_bitset_5, .set_active_agg_sig ⟨[4, 2]⟩]

end eosio.hotstuff

namespace eosio.testing

/-- The struct `user_specified_trx_config` of `trx_generator.hpp`. -/
structure user_specified_trx_config where
  _abi_data_file_path : String
  _actions_data_json_file_or_str : String
  _actions_auths_json_file_or_str : String
deriving DecidableEq, Repr

namespace user_specified_trx_config

/-- The member `fully_configured()`. -/
def fully_configured (c : user_specified_trx_config) : Bool :=
  !c._abi_data_file_path.isEmpty && !c._actions_data_json_file_or_str.isEmpty
    && !c._actions_auths_json_file_or_str.isEmpty

/-- The member `partially_configured()`. -/
def partially_configured (c : user_specified_trx_config) : Bool :=
  !c.fully_configured
    && (!c._abi_data_file_path.isEmpty || !c._actions_data_json_file_or_str.isEmpty
        || !c._actions_auths_json_file_or_str.isEmpty)

end user_specified_trx_config

end eosio.testing

/-! ## Theorems -/

namespace eosio.chain

/-- Helper: on 32-bit arguments the shift-or of `compute_height` is the sum. -/
theorem compute_height_eq_add (block_height phase_counter : Nat)
    (hb : block_height < 2 ^ 32) (hp : phase_counter < 2 ^ 32) :
    compute_height block_height phase_counter
      = block_height * 2 ^ 32 + phase_counter := by
  have hlt : block_height <<< 32 < 2 ^ 64 := by
    rw [Nat.shiftLeft_eq]; omega
  unfold compute_height
  rw [Nat.mod_eq_of_lt hlt, Nat.shiftLeft_eq, Nat.mul_comm block_height (2 ^ 32)]
  exact (Nat.mul_add_lt_is_or hp block_height).symm

/-- C1: for 32-bit unsigned `block_height` and `phase_counter`,
`compute_height` equals `block_height * 2^32 + phase_counter`; the shifted
value stays below `2^64` (so the 64-bit shift loses nothing), the result fits
in 64 bits, and the bitwise OR coincides with the sum. -/
theorem compute_height_spec (block_height phase_counter : Nat)
    (hb : block_height < 2 ^ 32) (hp : phase_counter < 2 ^ 32) :
    compute_height block_height phase_counter
        = block_height * 2 ^ 32 + phase_counter
      ∧ block_height <<< 32 < 2 ^ 64
      ∧ compute_height block_height phase_counter < 2 ^ 64
      ∧ (block_height <<< 32) ||| phase_counter
          = block_height <<< 32 + phase_counter := by
  have hlt : block_height <<< 32 < 2 ^ 64 := by
    rw [Nat.shiftLeft_eq]; omega
  have hsum := compute_height_eq_add block_height phase_counter hb hp
  refine ⟨hsum, hlt, ?_, ?_⟩
  · rw [hsum]; omega
  · rw [Nat.shiftLeft_eq, Nat.mul_comm block_height (2 ^ 32)]
    exact (Nat.mul_add_lt_is_or hp block_height).symm

/-- Witness for C1 at block height 7, phase counter 2. -/
theorem compute_height_spec_witness :
    compute_height 7 2 = 7 * 2 ^ 32 + 2
      ∧ 7 <<< 32 < 2 ^ 64
      ∧ compute_height 7 2 < 2 ^ 64
      ∧ (7 <<< 32) ||| 2 = 7 <<< 32 + 2 :=
  compute_height_spec 7 2 (by decide) (by decide)

/-- C2: `compute_height` orders `(block_height, phase_counter)` pairs
lexicographically on 32-bit arguments, and two distinct pairs never share a
height. -/
theorem compute_height_lex (a b c d : Nat)
    (ha : a < 2 ^ 32) (hb : b < 2 ^ 32) (hc : c < 2 ^ 32) (hd : d < 2 ^ 32) :
    (compute_height a b < compute_height c d ↔ (a < c ∨ (a = c ∧ b < d)))
      ∧ (compute_height a b = compute_height c d → a = c ∧ b = d) := by
  rw [compute_height_eq_add a b ha hb, compute_height_eq_add c d hc hd]
  constructor
  · constructor
    · intro h; omega
    · intro h; omega
  · intro h; omega

/-- Witness for C2 at the pairs `(1, 200)` and `(2, 0)`. -/
theorem compute_height_lex_witness :
    (compute_height 1 200 < compute_height 2 0 ↔ (1 < 2 ∨ (1 = 2 ∧ 200 < 0)))
      ∧ (compute_height 1 200 = compute_height 2 0 → 1 = 2 ∧ 200 = 0) :=
  compute_height_lex 1 200 2 0 (by decide) (by decide) (by decide) (by decide)

end eosio.chain

namespace boost.dynamic_bitset

/-- Helper: and-ing with the mask of bit `k` tests bit `k`. -/
theorem and_bit_mask_ne_zero (x k : Nat) : (x &&& (1 <<< k) != 0) = x.testBit k := by
  rw [Nat.one_shiftLeft, Nat.and_two_pow]
  have hpos : 0 < 2 ^ k := Nat.pos_pow_of_pos k (by decide)
  cases h : x.testBit k
  · simp
  · simp only [Bool.toNat_true, Nat.one_mul, bne_iff_ne, ne_eq]
    omega

/-- Helper: `m_unchecked_test` reads bit `pos % w` of block `pos / w`. -/
theorem m_unchecked_test_eq {w : Nat} (bs : dynamic_bitset w) (pos : Nat) :
    bs.m_unchecked_test pos = (bs.m_bits.getD (pos / w) 0).testBit (pos % w) := by
  unfold m_unchecked_test
  exact and_bit_mask_ne_zero _ _

/-- Helper: `std::vector::resize` on the empty vector gives `n` copies. -/
theorem vector_resize_nil (n v : Nat) : vector_resize [] n v = List.replicate n v := by
  simp [vector_resize]

/-- Helper: a bitset whose blocks are all zero has no bit set. -/
theorem m_unchecked_test_of_zero {w : Nat} (bs : dynamic_bitset w)
    (hz : ∀ b ∈ bs.m_bits, b = 0) (pos : Nat) : bs.m_unchecked_test pos = false := by
  have hblock : bs.m_bits.getD (pos / w) 0 = 0 := by
    rw [List.getD_eq_getElem?_getD]
    cases hget : bs.m_bits[pos / w]? with
    | none => rfl
    | some b =>
      have hmem : b ∈ bs.m_bits := List.getElem?_mem hget
      simpa using hz b hmem
  rw [m_unchecked_test_eq, hblock]
  simp

/-- Helper: `m_zero_unused_bits` keeps an all-zero block vector all-zero and
leaves the size alone. -/
theorem m_zero_unused_bits_of_zero {w : Nat} (bs : dynamic_bitset w)
    (hz : ∀ b ∈ bs.m_bits, b = 0) :
    (∀ b ∈ bs.m_zero_unused_bits.m_bits, b = 0)
      ∧ bs.m_zero_unused_bits.m_num_bits = bs.m_num_bits := by
  unfold m_zero_unused_bits
  split
  · split
    · rename_i hb hlast
      refine ⟨?_, rfl⟩
      intro b hmem
      have hhb : hb = 0 := hz hb (List.mem_of_getLast?_eq_some hlast)
      rcases List.mem_append.mp hmem with h | h
      · exact hz b (List.dropLast_subset _ h)
      · simp [hhb] at h
        exact h
    · exact ⟨hz, rfl⟩
  · exact ⟨hz, rfl⟩

/-- Helper: resizing the default bitset gives `num_bits` bits, none set. -/
theorem resize_empty_set {w : Nat} (num_bits : Nat) :
    ((empty_set : dynamic_bitset w).resize num_bits).m_num_bits = num_bits
      ∧ ∀ pos, ((empty_set : dynamic_bitset w).resize num_bits).m_unchecked_test pos = false := by
  have hz : ∀ b ∈ (if (calc_num_blocks w num_bits != (empty_set : dynamic_bitset w).num_blocks) = true
        then vector_resize (empty_set : dynamic_bitset w).m_bits (calc_num_blocks w num_bits) 0
        else (empty_set : dynamic_bitset w).m_bits), b = 0 := by
    intro b hb
    split at hb
    · rw [empty_set, vector_resize_nil] at hb
      exact List.eq_of_mem_replicate hb
    · simp [empty_set] at hb
  have h := m_zero_unused_bits_of_zero
    (⟨_, num_bits⟩ : dynamic_bitset w) hz
  exact ⟨h.2, fun pos => m_unchecked_test_of_zero _ h.1 pos⟩

/-- Helper: a bitset without set bits prints as a run of `'0'`. -/
theorem to_string_of_clear {w : Nat} (bs : dynamic_bitset w)
    (hc : ∀ pos, bs.m_unchecked_test pos = false) :
    bs.to_string = List.replicate bs.m_num_bits '0' := by
  unfold to_string size
  rw [List.eq_replicate_iff]
  constructor
  · simp
  · intro c hmem
    rcases List.mem_map.mp hmem with ⟨i, _, hi⟩
    rw [hc i] at hi
    simpa using hi.symm

/-- Helper: the number of blocks of a 32-bit-block bitset, spelled out. -/
theorem calc_num_blocks_32 (n : Nat) :
    calc_num_blocks 32 n = (n + 31) / 32 := by
  unfold calc_num_blocks
  by_cases h : n % 32 = 0
  · simp [h]; omega
  · simp [h]; omega

/-- Helper: a block with no bit under the invariant's mask has no bit at or
above `e`. -/
theorem testBit_of_mask_zero (hb e j : Nat)
    (hm : hb &&& (((2 ^ 32 - 1) <<< e) % 2 ^ 32) = 0) (hej : e ≤ j) (hj : j < 32) :
    hb.testBit j = false := by
  have h := congrArg (fun x => Nat.testBit x j) hm
  simp only [Nat.testBit_and, Nat.testBit_mod_two_pow, Nat.testBit_shiftLeft,
    Nat.testBit_two_pow_sub_one, Nat.zero_testBit] at h
  have h1 : decide (j < 32) = true := by simpa using hj
  have h2 : decide (j ≥ e) = true := by simpa using hej
  have h3 : decide (j - e < 32) = true := by
    have : j - e < 32 := by omega
    simpa using this
  rw [h1, h2, h3] at h
  simpa using h

/-- Helper: in a well-formed bitset the block count is `calc_num_blocks(size())`. -/
theorem wf_num_blocks (bs : dynamic_bitset 32) (h : bs.wf) :
    bs.m_bits.length = calc_num_blocks 32 bs.m_num_bits := by
  have h2 := h.2
  unfold m_check_invariants at h2
  simp only [Bool.and_eq_true, beq_iff_eq] at h2
  exact h2.2

/-- Helper: in a well-formed bitset the bits of the last block at or above
`size()` are zero. -/
theorem wf_unused_clear (bs : dynamic_bitset 32) (h : bs.wf) (pos : Nat)
    (hlo : bs.m_num_bits ≤ pos) (hhi : pos < bs.m_bits.length * 32) :
    bs.m_unchecked_test pos = false := by
  have hlen := wf_num_blocks bs h
  rw [calc_num_blocks_32] at hlen
  have h2 := h.2
  unfold m_check_invariants count_extra_bits at h2
  simp only [Bool.and_eq_true] at h2
  have hextra : 0 < bs.m_num_bits % 32 := by omega
  have hmask := h2.1
  rw [if_pos (by simpa using hextra)] at hmask
  have hmask : bs.m_highest_block &&& (((2 ^ 32 - 1) <<< (bs.m_num_bits % 32)) % 2 ^ 32) = 0 := by
    simpa using hmask
  have hidx : pos / 32 = bs.m_bits.length - 1 := by omega
  rw [m_unchecked_test_eq, hidx]
  have hblock : bs.m_bits.getD (bs.m_bits.length - 1) 0 = bs.m_highest_block := by
    unfold m_highest_block
    rw [List.getD_eq_getElem?_getD, List.getLast?_eq_getElem?]
  rw [hblock]
  exact testBit_of_mask_zero _ _ _ hmask (by omega) (Nat.mod_lt _ (by decide))

/-- Helper: converting the blocks of a well-formed bitset to the block type
changes nothing. -/
theorem wf_map_mod (bs : dynamic_bitset 32) (h : bs.wf) :
    bs.m_bits.map (fun b => b % 2 ^ 32) = bs.m_bits := by
  have h1 := h.1
  calc bs.m_bits.map (fun b => b % 2 ^ 32)
      = bs.m_bits.map id := List.map_congr_left (fun b hb => Nat.mod_eq_of_lt (h1 b hb))
    _ = bs.m_bits := List.map_id _

/-- Helper: `to_block_range` into a vector sized by `num_blocks()` yields the
blocks themselves. -/
theorem to_block_range_sized {w : Nat} (bs : dynamic_bitset w) :
    bs.to_block_range (vector_resize [] bs.num_blocks 0) = bs.m_bits := by
  unfold to_block_range num_blocks
  rw [vector_resize_nil]
  simp

/-- Helper: the bitset built by the size constructor is well-formed. -/
theorem init_from_unsigned_long_wf (n : Nat) : (init_from_unsigned_long 32 n).wf := by
  unfold init_from_unsigned_long
  rw [vector_resize_nil]
  constructor
  · intro b hb
    rw [List.eq_of_mem_replicate hb]
    decide
  · unfold m_check_invariants m_highest_block num_blocks size
    simp only [Bool.and_eq_true, List.length_replicate, beq_self_eq_true, and_true]
    split
    · have hlast : (List.replicate (calc_num_blocks 32 n) 0).getLast?.getD 0 = 0 := by
        cases hl : (List.replicate (calc_num_blocks 32 n) 0).getLast? with
        | none => rfl
        | some b => exact List.eq_of_mem_replicate (List.mem_of_getLast?_eq_some hl)
      rw [hlast]
      simp
    · rfl

/-- Helper: the bitset built from a range of blocks is well-formed. -/
theorem m_init_from_block_range_wf (blocks : List Nat) :
    (m_init_from_block_range 32 blocks).wf := by
  unfold m_init_from_block_range
  constructor
  · intro b hb
    rcases List.mem_map.mp hb with ⟨a, _, rfl⟩
    exact Nat.mod_lt _ (by decide)
  · unfold m_check_invariants count_extra_bits num_blocks size
    simp only [Nat.mul_mod_left, Nat.lt_irrefl, if_false, Bool.true_and, beq_iff_eq]
    rw [calc_num_blocks_32]
    omega

end boost.dynamic_bitset

namespace eosio.chain

/-- Helper: the modelled `num_from_id` is a 32-bit value. -/
theorem num_from_id_lt (id : block_id_type) : num_from_id id < 2 ^ 32 := by
  unfold num_from_id
  omega

/-- C3: for a proposal message whose `phase_counter` is a `uint8_t` value,
`get_height()` is `compute_height(block_num(), phase_counter)`; its upper 32
bits are the block number read from `block_id`, its lower 32 bits are exactly
`phase_counter`. -/
theorem get_height_spec (p : hs_proposal_message) (hp : p.phase_counter < 256) :
    p.get_height = compute_height p.block_num p.phase_counter
      ∧ p.get_height / 2 ^ 32 = p.block_num
      ∧ p.get_height % 2 ^ 32 = p.phase_counter
      ∧ p.block_num = num_from_id p.block_id
      ∧ p.get_height % 2 ^ 32 < 256 := by
  have hb := num_from_id_lt p.block_id
  have hh : p.get_height = num_from_id p.block_id * 2 ^ 32 + p.phase_counter :=
    compute_height_eq_add _ _ hb (by omega)
  refine ⟨rfl, ?_, ?_, rfl, ?_⟩
  · rw [hh]; unfold hs_proposal_message.block_num; omega
  · rw [hh]; omega
  · rw [hh]; omega

/-- Witness for C3: block id starting with bytes `00 00 00 01`, phase 2. -/
theorem get_height_spec_witness :
    eosio.hotstuff.example_proposal_1_2.phase_counter < 256
      ∧ (eosio.hotstuff.example_proposal_1_2.get_height
          = compute_height eosio.hotstuff.example_proposal_1_2.block_num
              eosio.hotstuff.example_proposal_1_2.phase_counter
        ∧ eosio.hotstuff.example_proposal_1_2.get_height / 2 ^ 32
            = eosio.hotstuff.example_proposal_1_2.block_num
        ∧ eosio.hotstuff.example_proposal_1_2.get_height % 2 ^ 32
            = eosio.hotstuff.example_proposal_1_2.phase_counter
        ∧ eosio.hotstuff.example_proposal_1_2.block_num
            = num_from_id eosio.hotstuff.example_proposal_1_2.block_id
        ∧ eosio.hotstuff.example_proposal_1_2.get_height % 2 ^ 32 < 256) :=
  ⟨by decide, get_height_spec eosio.hotstuff.example_proposal_1_2 (by decide)⟩

end eosio.chain

namespace eosio.hotstuff

open boost eosio.chain

/-- C4: after `reset(p, n)`, whatever the certificate held before, the proposal
id is `p`, the bitset has exactly `n` bits and each of them is 0, the
aggregated signature is the default one and `is_quorum_met()` is false; this
holds for the bitset-backed certificate of `qc_chain.hpp` and for the
string-backed one of `hotstuff.hpp` (whose string is `n` characters `'0'`). -/
theorem reset_spec (q : quorum_certificate) (qc : eosio.chain.quorum_certificate)
    (p : sha256) (n : Nat) :
    ((q.reset p n).get_proposal_id = p
      ∧ (q.reset p n).active_finalizers.size = n
      ∧ (∀ i, i < n → (q.reset p n).active_finalizers.test i = some false)
      ∧ (q.reset p n).active_finalizers.wf
      ∧ (q.reset p n).get_active_agg_sig = bls_signature.default
      ∧ (q.reset p n).is_quorum_met = false)
    ∧ ((qc.reset p n).get_proposal_id = p
      ∧ (qc.reset p n).active_finalizers = List.replicate n '0'
      ∧ (qc.reset p n).active_finalizers.length = n
      ∧ (qc.reset p n).get_active_agg_sig = bls_signature.default
      ∧ (qc.reset p n).is_quorum_met = false) := by
  have hz : ∀ b ∈ (dynamic_bitset.init_from_unsigned_long 32 n).m_bits, b = 0 := by
    intro b hb
    unfold dynamic_bitset.init_from_unsigned_long at hb
    rw [dynamic_bitset.vector_resize_nil] at hb
    exact List.eq_of_mem_replicate hb
  have hr := dynamic_bitset.resize_empty_set (w := 64) n
  have hs : (qc.reset p n).active_finalizers = List.replicate n '0' := by
    show ((dynamic_bitset.empty_set : dynamic_bitset 64).resize n).to_string = _
    rw [dynamic_bitset.to_string_of_clear _ hr.2, hr.1]
  refine ⟨⟨rfl, rfl, ?_, dynamic_bitset.init_from_unsigned_long_wf n, rfl, rfl⟩,
    ⟨rfl, hs, ?_, rfl, rfl⟩⟩
  · intro i hi
    show dynamic_bitset.test (dynamic_bitset.init_from_unsigned_long 32 n) i = some false
    unfold dynamic_bitset.test
    rw [if_pos (by exact hi), dynamic_bitset.m_unchecked_test_of_zero _ hz]
  · rw [hs, List.length_replicate]

/-- Helper: the block vector that `to_msg` sends is the bitset's own. -/
theorem to_msg_active_finalizers (q : quorum_certificate) :
    q.to_msg.active_finalizers = q.active_finalizers.m_bits :=
  dynamic_bitset.to_block_range_sized q.active_finalizers

/-- Helper: the bitset rebuilt from the message of a well-formed certificate has
the same blocks, and `32 * num_blocks` bits. -/
theorem of_msg_to_msg_bitset (q : quorum_certificate) (h : q.active_finalizers.wf) :
    (quorum_certificate.of_msg q.to_msg).active_finalizers
      = ⟨q.active_finalizers.m_bits, q.active_finalizers.m_bits.length * 32⟩ := by
  show dynamic_bitset.m_init_from_block_range 32 q.to_msg.active_finalizers = _
  rw [to_msg_active_finalizers]
  unfold dynamic_bitset.m_init_from_block_range
  simp only [dynamic_bitset.wf_map_mod _ h]

/-- Helper: a well-formed bitset of `n` bits occupies `ceil(n / 32)` blocks. -/
theorem wf_block_bounds (bs : hs_bitset) (h : bs.wf) :
    bs.m_bits.length = (bs.m_num_bits + 31) / 32
      ∧ bs.m_num_bits ≤ bs.m_bits.length * 32
      ∧ bs.m_bits.length * 32 < bs.m_num_bits + 32 := by
  have hlen := dynamic_bitset.wf_num_blocks bs h
  rw [dynamic_bitset.calc_num_blocks_32] at hlen
  omega

/-- C5: decoding undoes encoding on the transmitted content of a certificate
with a well-formed bitset of `n` bits: the certificate rebuilt from `to_msg()`
has the same proposal id and aggregated signature, bit `i` equal to bit `i` of
the original for every `i < n`, and every bit it has at a position `>= n` is 0. -/
theorem of_msg_to_msg_content (q : quorum_certificate) (h : q.active_finalizers.wf) :
    (quorum_certificate.of_msg q.to_msg).proposal_id = q.proposal_id
      ∧ (quorum_certificate.of_msg q.to_msg).active_agg_sig = q.active_agg_sig
      ∧ (∀ i, i < q.active_finalizers.size →
          (quorum_certificate.of_msg q.to_msg).active_finalizers.test i
            = q.active_finalizers.test i)
      ∧ (∀ i, q.active_finalizers.size ≤ i →
          i < (quorum_certificate.of_msg q.to_msg).active_finalizers.size →
          (quorum_certificate.of_msg q.to_msg).active_finalizers.test i = some false)
      ∧ (∀ i, (quorum_certificate.of_msg q.to_msg).active_finalizers.size ≤ i →
          (quorum_certificate.of_msg q.to_msg).active_finalizers.test i = none) := by
  have hbits := of_msg_to_msg_bitset q h
  have hb := wf_block_bounds q.active_finalizers h
  refine ⟨rfl, rfl, ?_, ?_, ?_⟩
  · intro i hi
    rw [hbits]
    unfold dynamic_bitset.size at hi
    unfold dynamic_bitset.test
    rw [if_pos (by show i < q.active_finalizers.m_bits.length * 32; omega), if_pos hi]
    rfl
  · intro i hlo hhi
    rw [hbits] at hhi ⊢
    unfold dynamic_bitset.size at hlo hhi
    unfold dynamic_bitset.test
    rw [if_pos hhi]
    have hclear := dynamic_bitset.wf_unused_clear q.active_finalizers h i hlo hhi
    have hsame : dynamic_bitset.m_unchecked_test
        (⟨q.active_finalizers.m_bits, q.active_finalizers.m_bits.length * 32⟩ : hs_bitset) i
        = q.active_finalizers.m_unchecked_test i := rfl
    rw [hsame, hclear]
  · intro i hi
    unfold dynamic_bitset.test
    unfold dynamic_bitset.size at hi
    rw [if_neg (by omega)]

/-- Witness for C5 on a certificate over five finalizers. -/
theorem of_msg_to_msg_content_witness :
    example_qc_5.active_finalizers.wf
      ∧ ((quorum_certificate.of_msg example_qc_5.to_msg).proposal_id = example_qc_5.proposal_id
        ∧ (quorum_certificate.of_msg example_qc_5.to_msg).active_agg_sig
            = example_qc_5.active_agg_sig
        ∧ (∀ i, i < example_qc_5.active_finalizers.size →
            (quorum_certificate.of_msg example_qc_5.to_msg).active_finalizers.test i
              = example_qc_5.active_finalizers.test i)
        ∧ (∀ i, example_qc_5.active_finalizers.size ≤ i →
            i < (quorum_certificate.of_msg example_qc_5.to_msg).active_finalizers.size →
            (quorum_certificate.of_msg example_qc_5.to_msg).active_finalizers.test i
              = some false)
        ∧ (∀ i, (quorum_certificate.of_msg example_qc_5.to_msg).active_finalizers.size ≤ i →
            (quorum_certificate.of_msg example_qc_5.to_msg).active_finalizers.test i = none)) :=
  ⟨by decide, of_msg_to_msg_content example_qc_5 (by decide)⟩

/-- C6 (as stated, refuted): a certificate constructed over five finalizers has
a bitset of 5 bits, and the certificate rebuilt from its message has 32. -/
theorem of_msg_to_msg_size_counterexample :
    (quorum_certificate.init 5).active_finalizers.wf
      ∧ (quorum_certificate.init 5).active_finalizers.size = 5
      ∧ (quorum_certificate.of_msg (quorum_certificate.init 5).to_msg).active_finalizers.size
          = 32
      ∧ (quorum_certificate.of_msg (quorum_certificate.init 5).to_msg).active_finalizers.size
          ≠ (quorum_certificate.init 5).active_finalizers.size := by
  decide

/-- C6 (amended): for a certificate whose well-formed bitset has `n` bits, the
certificate rebuilt from `to_msg()` has a bitset of exactly `32 * ceil(n / 32)`
bits: at least `n`, fewer than `n + 32`, and exactly `n` precisely when `n` is
a multiple of 32. -/
theorem of_msg_to_msg_size (q : quorum_certificate) (h : q.active_finalizers.wf) :
    (quorum_certificate.of_msg q.to_msg).active_finalizers.size
        = 32 * ((q.active_finalizers.size + 31) / 32)
      ∧ q.active_finalizers.size
          ≤ (quorum_certificate.of_msg q.to_msg).active_finalizers.size
      ∧ (quorum_certificate.of_msg q.to_msg).active_finalizers.size
          < q.active_finalizers.size + 32
      ∧ ((quorum_certificate.of_msg q.to_msg).active_finalizers.size
            = q.active_finalizers.size
          ↔ q.active_finalizers.size % 32 = 0) := by
  have hbits := of_msg_to_msg_bitset q h
  have hb := wf_block_bounds q.active_finalizers h
  rw [hbits]
  unfold dynamic_bitset.size
  show q.active_finalizers.m_bits.length * 32 = _ ∧ _ ≤ q.active_finalizers.m_bits.length * 32
    ∧ q.active_finalizers.m_bits.length * 32 < _
    ∧ (q.active_finalizers.m_bits.length * 32 = _ ↔ _)
  omega

/-- Witness for the amended C6 on a certificate over five finalizers. -/
theorem of_msg_to_msg_size_witness :
    example_qc_5.active_finalizers.wf
      ∧ ((quorum_certificate.of_msg example_qc_5.to_msg).active_finalizers.size
          = 32 * ((example_qc_5.active_finalizers.size + 31) / 32)
        ∧ example_qc_5.active_finalizers.size
            ≤ (quorum_certificate.of_msg example_qc_5.to_msg).active_finalizers.size
        ∧ (quorum_certificate.of_msg example_qc_5.to_msg).active_finalizers.size
            < example_qc_5.active_finalizers.size + 32
        ∧ ((quorum_certificate.of_msg example_qc_5.to_msg).active_finalizers.size
              = example_qc_5.active_finalizers.size
            ↔ example_qc_5.active_finalizers.size % 32 = 0)) :=
  ⟨by decide, of_msg_to_msg_size example_qc_5 (by decide)⟩

/-- C7: the `quorum_met` flag never leaves the replica: changing only
`quorum_met` (to any value, or through `set_quorum_met()`) leaves `to_msg()`
unchanged, a certificate built from any message has `is_quorum_met()` false,
and the members reflected for the string-backed certificate do not depend on
`quorum_met` either. -/
theorem quorum_met_not_transmitted (q : quorum_certificate) (b : Bool)
    (msg : quorum_certificate_message) (qc : eosio.chain.quorum_certificate) :
    ({ q with quorum_met := b } : quorum_certificate).to_msg = q.to_msg
      ∧ q.set_quorum_met.to_msg = q.to_msg
      ∧ (quorum_certificate.of_msg msg).is_quorum_met = false
      ∧ (quorum_certificate.of_msg q.set_quorum_met.to_msg).is_quorum_met = false
      ∧ ({ qc with quorum_met := b } : eosio.chain.quorum_certificate).reflected_members
          = qc.reflected_members
      ∧ qc.set_quorum_met.reflected_members = qc.reflected_members :=
  ⟨rfl, rfl, rfl, rfl, rfl, rfl⟩

/-- C8: `to_msg` encodes a well-formed bitset of `n` bits as 32-bit blocks,
least significant bit first: there are exactly `ceil(n / 32)` entries, each a
32-bit value; for every `i < n` bit `i` of the certificate is bit `i mod 32` of
entry `i div 32`; and the bits of the last entry at positions `>= n` are 0. -/
theorem to_msg_blocks (q : quorum_certificate) (h : q.active_finalizers.wf) :
    q.to_msg.active_finalizers.length = (q.active_finalizers.size + 31) / 32
      ∧ q.active_finalizers.size ≤ 32 * q.to_msg.active_finalizers.length
      ∧ 32 * q.to_msg.active_finalizers.length < q.active_finalizers.size + 32
      ∧ (∀ b ∈ q.to_msg.active_finalizers, b < 2 ^ 32)
      ∧ (∀ i, i < q.active_finalizers.size →
          q.active_finalizers.test i
            = some ((q.to_msg.active_finalizers.getD (i / 32) 0).testBit (i % 32)))
      ∧ (∀ i, q.active_finalizers.size ≤ i → i < 32 * q.to_msg.active_finalizers.length →
          (q.to_msg.active_finalizers.getD (i / 32) 0).testBit (i % 32) = false) := by
  have hb := wf_block_bounds q.active_finalizers h
  rw [to_msg_active_finalizers]
  unfold dynamic_bitset.size
  refine ⟨hb.1, by omega, by omega, h.1, ?_, ?_⟩
  · intro i hi
    unfold dynamic_bitset.test
    rw [if_pos hi, dynamic_bitset.m_unchecked_test_eq]
  · intro i hlo hhi
    rw [← dynamic_bitset.m_unchecked_test_eq]
    exact dynamic_bitset.wf_unused_clear q.active_finalizers h i hlo (by omega)

/-- Witness for C8 on a certificate over five finalizers. -/
theorem to_msg_blocks_witness :
    example_qc_5.active_finalizers.wf
      ∧ (example_qc_5.to_msg.active_finalizers.length
          = (example_qc_5.active_finalizers.size + 31) / 32
        ∧ example_qc_5.active_finalizers.size ≤ 32 * example_qc_5.to_msg.active_finalizers.length
        ∧ 32 * example_qc_5.to_msg.active_finalizers.length
            < example_qc_5.active_finalizers.size + 32
        ∧ (∀ b ∈ example_qc_5.to_msg.active_finalizers, b < 2 ^ 32)
        ∧ (∀ i, i < example_qc_5.active_finalizers.size →
            example_qc_5.active_finalizers.test i
              = some ((example_qc_5.to_msg.active_finalizers.getD (i / 32) 0).testBit (i % 32)))
        ∧ (∀ i, example_qc_5.active_finalizers.size ≤ i →
            i < 32 * example_qc_5.to_msg.active_finalizers.length →
            (example_qc_5.to_msg.active_finalizers.getD (i / 32) 0).testBit (i % 32)
              = false)) :=
  ⟨by decide, to_msg_blocks example_qc_5 (by decide)⟩

end eosio.hotstuff

namespace eosio.hotstuff.qc_chain

open boost eosio.chain

/-- Helper: the lookup by id fails exactly when no stored proposal has the id. -/
theorem find_by_proposal_id_eq_none (store : proposal_store_type) (id : sha256) :
    find_by_proposal_id store id = none ↔ ∀ q ∈ store, q.proposal_id ≠ id := by
  unfold find_by_proposal_id
  rw [List.find?_eq_none]
  constructor
  · intro h q hq heq
    exact h q hq (by simpa using heq)
  · intro h q hq hp
    exact h q hq (by simpa using hp)

/-- Helper: `insert_proposal` returns false exactly on a clash of ids. -/
theorem insert_proposal_false_iff (s : qc_chain) (p : hs_proposal_message) :
    (insert_proposal s p).1 = false
      ↔ ∃ q ∈ s._proposal_store, q.proposal_id = p.proposal_id := by
  unfold insert_proposal
  cases hfind : find_by_proposal_id s._proposal_store p.proposal_id with
  | none =>
    have hnone := (find_by_proposal_id_eq_none _ _).mp hfind
    constructor
    · intro h; simp at h
    · rintro ⟨q, hq, heq⟩
      exact absurd heq (hnone q hq)
  | some q =>
    constructor
    · intro _
      have hsome : List.find? (fun q => q.proposal_id == p.proposal_id) s._proposal_store
          = some q := hfind
      refine ⟨q, List.mem_of_find?_eq_some hsome, ?_⟩
      have := List.find?_some hsome
      simpa using this
    · intro _; rfl

/-- Helper: what `insert_proposal` leaves behind, by the flag it returns. -/
theorem insert_proposal_state (s : qc_chain) (p : hs_proposal_message) :
    ((insert_proposal s p).1 = false ∧ (insert_proposal s p).2 = s)
      ∨ ((insert_proposal s p).1 = true
          ∧ (insert_proposal s p).2 = { s with _proposal_store := s._proposal_store ++ [p] }
          ∧ ∀ q ∈ s._proposal_store, q.proposal_id ≠ p.proposal_id) := by
  unfold insert_proposal
  cases hfind : find_by_proposal_id s._proposal_store p.proposal_id with
  | none => exact Or.inr ⟨rfl, rfl, (find_by_proposal_id_eq_none _ _).mp hfind⟩
  | some q => exact Or.inl ⟨rfl, rfl⟩

/-- Helper: one `insert_proposal` keeps the stored ids pairwise distinct. -/
theorem insert_proposal_nodup (s : qc_chain) (p : hs_proposal_message)
    (h : (s._proposal_store.map (fun q => q.proposal_id)).Nodup) :
    ((insert_proposal s p).2._proposal_store.map (fun q => q.proposal_id)).Nodup := by
  rcases insert_proposal_state s p with ⟨_, hs⟩ | ⟨_, hs, hfresh⟩
  · rw [hs]; exact h
  · rw [hs]
    simp only [List.map_append, List.map_cons, List.map_nil]
    rw [List.nodup_append]
    refine ⟨h, List.nodup_singleton _, ?_⟩
    intro id hid hid'
    rcases List.mem_map.mp hid with ⟨q, hq, rfl⟩
    have : q.proposal_id = p.proposal_id := by simpa using hid'
    exact hfresh q hq this

/-- Helper: a run of `insert_proposal` keeps the stored ids pairwise distinct. -/
theorem insert_proposals_nodup (ps : List hs_proposal_message) (s : qc_chain)
    (h : (s._proposal_store.map (fun q => q.proposal_id)).Nodup) :
    ((insert_proposals s ps)._proposal_store.map (fun q => q.proposal_id)).Nodup := by
  induction ps generalizing s with
  | nil => exact h
  | cons p ps ih =>
    show ((insert_proposals (insert_proposal s p).2 ps)._proposal_store.map _).Nodup
    exact ih _ (insert_proposal_nodup s p h)

/-- C9: `insert_proposal(p)` returns false iff a proposal with `p.proposal_id`
is already stored (whatever its height) and then leaves the state unchanged;
otherwise it returns true and the store afterwards is the old one followed by
`p`, so it contains `p`; inserting the same proposal twice returns false the
second time; and a store filled by any run of `insert_proposal` calls from
empty never holds two proposals with the same `proposal_id`. -/
theorem insert_proposal_spec (s : qc_chain) (p : hs_proposal_message)
    (ps : List hs_proposal_message) :
    ((insert_proposal s p).1 = false
        ↔ ∃ q ∈ s._proposal_store, q.proposal_id = p.proposal_id)
      ∧ (((insert_proposal s p).1 = false ∧ (insert_proposal s p).2 = s)
          ∨ ((insert_proposal s p).1 = true
              ∧ (insert_proposal s p).2
                  = { s with _proposal_store := s._proposal_store ++ [p] }
              ∧ p ∈ (insert_proposal s p).2._proposal_store))
      ∧ (insert_proposal (insert_proposal s p).2 p).1 = false
      ∧ ((insert_proposals { s with _proposal_store := [] } ps)._proposal_store.map
            (fun q => q.proposal_id)).Nodup := by
  refine ⟨insert_proposal_false_iff s p, ?_, ?_, ?_⟩
  · rcases insert_proposal_state s p with h | ⟨h1, h2, _⟩
    · exact Or.inl h
    · refine Or.inr ⟨h1, h2, ?_⟩
      rw [h2]
      exact List.mem_append_right _ (List.mem_singleton_self p)
  · rw [insert_proposal_false_iff]
    rcases insert_proposal_state s p with ⟨h1, h2⟩ | ⟨_, h2, _⟩
    · rw [h2]
      exact (insert_proposal_false_iff s p).mp h1
    · rw [h2]
      exact ⟨p, List.mem_append_right _ (List.mem_singleton_self p), rfl⟩
  · exact insert_proposals_nodup ps _ List.nodup_nil

/-- C10 (the code at a failing input): a replica with `_v_height = 0` handles a
safe proposal on block 1 at phase 2 and stores `_v_height = 2`; a safe proposal
on block 2 at phase 0 then passes the vote rule (its 64-bit height `2 * 2^32`
exceeds 2) and the update leaves `_v_height = 0`, below the previous value. -/
theorem vote_rule_update_v_height_drops :
    example_replica._v_height = 0
      ∧ example_proposal_1_2.get_height = 1 * 2 ^ 32 + 2
      ∧ (vote_rule_update example_replica true example_proposal_1_2)._v_height = 2
      ∧ example_proposal_2_0.get_height = 2 * 2 ^ 32
      ∧ example_proposal_2_0.get_height
          > (vote_rule_update example_replica true example_proposal_1_2)._v_height
      ∧ (vote_rule_update (vote_rule_update example_replica true example_proposal_1_2)
            true example_proposal_2_0)._v_height = 0
      ∧ (vote_rule_update (vote_rule_update example_replica true example_proposal_1_2)
            true example_proposal_2_0)._v_height
          < (vote_rule_update example_replica true example_proposal_1_2)._v_height
      ∧ (vote_rule_updates example_replica
            [(true, example_proposal_1_2), (true, example_proposal_2_0)])._v_height = 0 := by
  decide

end eosio.hotstuff.qc_chain

namespace boost.dynamic_bitset

/-- Helper: `m_zero_unused_bits` keeps the number of blocks. -/
theorem m_zero_unused_bits_length {w : Nat} (bs : dynamic_bitset w) :
    bs.m_zero_unused_bits.m_bits.length = bs.m_bits.length := by
  unfold m_zero_unused_bits
  split
  · split
    · rename_i hb hlast
      rcases List.getLast?_eq_some_iff.mp hlast with ⟨ys, hys⟩
      simp [hys]
    · rfl
  · rfl

/-- Helper: a bitset with `calc_num_blocks(size())` blocks, all zero, is
well-formed. -/
theorem wf_of_zero (bs : dynamic_bitset 32) (hz : ∀ b ∈ bs.m_bits, b = 0)
    (hlen : bs.m_bits.length = calc_num_blocks 32 bs.m_num_bits) : bs.wf := by
  constructor
  · intro b hb
    rw [hz b hb]
    decide
  · have hlast : bs.m_highest_block = 0 := by
      unfold m_highest_block
      cases hl : bs.m_bits.getLast? with
      | none => rfl
      | some b => exact hz b (List.mem_of_getLast?_eq_some hl)
    unfold m_check_invariants num_blocks size
    rw [hlast, hlen]
    simp

/-- Helper: the default bitset resized to `n` bits, as the size constructor of
the certificate builds it, is well-formed. -/
theorem resize_empty_set_wf (n : Nat) : ((empty_set : dynamic_bitset 32).resize n).wf := by
  have hbits : (if (calc_num_blocks 32 n != (empty_set : dynamic_bitset 32).num_blocks) = true
        then vector_resize (empty_set : dynamic_bitset 32).m_bits (calc_num_blocks 32 n) 0
        else (empty_set : dynamic_bitset 32).m_bits)
      = List.replicate (calc_num_blocks 32 n) 0 := by
    split
    · rw [empty_set, vector_resize_nil]
    · rename_i hne
      have h0 : calc_num_blocks 32 n = 0 := by
        simpa [empty_set, num_blocks] using hne
      rw [h0]
      rfl
  have hz : ∀ b ∈ (⟨List.replicate (calc_num_blocks 32 n) 0, n⟩ : dynamic_bitset 32).m_bits,
      b = 0 := fun b hb => List.eq_of_mem_replicate hb
  have hzero := m_zero_unused_bits_of_zero _ hz
  have hlen := m_zero_unused_bits_length
    (⟨List.replicate (calc_num_blocks 32 n) 0, n⟩ : dynamic_bitset 32)
  unfold resize
  simp only [hbits]
  apply wf_of_zero _ hzero.1
  rw [hlen, hzero.2]
  simp

end boost.dynamic_bitset

namespace eosio.chain

/-- C11 (as stated, refuted): with no replica registered and nothing
deactivated, `is_qc_chain_active` is true for the name 5, which is not a
registered replica. -/
theorem is_qc_chain_active_counterexample :
    example_pacemaker.is_qc_chain_active 5 = true
      ∧ 5 ∉ example_pacemaker._qcc_store
      ∧ ¬ (example_pacemaker.is_qc_chain_active 5 = true
            ↔ (5 ∈ example_pacemaker._qcc_store ∧ 5 ∉ example_pacemaker._qcc_deactivated)) := by
  decide

/-- C11 (amended): for every name `n`, `is_qc_chain_active(n)` is true iff `n`
is not in the deactivated set; hence among the registered replicas the active
ones are exactly the known replicas minus the deactivated ones. -/
theorem is_qc_chain_active_spec (tp : test_pacemaker) (n : name) :
    (tp.is_qc_chain_active n = true ↔ n ∉ tp._qcc_deactivated)
      ∧ ((n ∈ tp._qcc_store ∧ tp.is_qc_chain_active n = true)
          ↔ (n ∈ tp._qcc_store ∧ n ∉ tp._qcc_deactivated)) := by
  have h : tp.is_qc_chain_active n = true ↔ n ∉ tp._qcc_deactivated := by
    unfold test_pacemaker.is_qc_chain_active
    exact decide_eq_true_iff
  exact ⟨h, and_congr_right (fun _ => h)⟩

/-- C12: `get_proposal(id)` returns nothing iff `id` is not a key of
`proposals`, and it returns a proposal `p` iff `p` is the proposal stored under
`id`; the lookup is a function of the state alone and yields no new state. -/
theorem get_proposal_spec (fs : finalizer_state) (id : sha256) :
    (fs.get_proposal id = none ↔ id ∉ fs.proposals.keys)
      ∧ (∀ p, fs.get_proposal id = some p ↔ (⟨id, p⟩ : Sigma _) ∈ fs.proposals.entries)
      ∧ (∀ p q, fs.get_proposal id = some p → (⟨id, q⟩ : Sigma _) ∈ fs.proposals.entries
          → q = p) := by
  have hget : fs.get_proposal id = fs.proposals.lookup id := by
    unfold finalizer_state.get_proposal
    cases fs.proposals.lookup id <;> rfl
  have hsome : ∀ p, fs.get_proposal id = some p
      ↔ (⟨id, p⟩ : Sigma _) ∈ fs.proposals.entries := by
    intro p
    rw [hget, ← AList.mem_lookup_iff]
    exact Iff.rfl
  refine ⟨?_, hsome, ?_⟩
  · rw [hget, AList.lookup_eq_none, AList.mem_keys]
  · intro p q hp hq
    have hq2 := (hsome q).mpr hq
    rw [hp] at hq2
    exact (Option.some.inj hq2).symm

end eosio.chain

namespace eosio.hotstuff.qc_chain

/-- C18: the message type tags are `new_view = 1`, `new_block = 2`, `qc = 3`,
`vote = 4`; these are all the values of `msg_type`, they are pairwise distinct
and each fits in one byte. -/
theorem msg_type_values :
    msg_type.new_view.value = 1 ∧ msg_type.new_block.value = 2
      ∧ msg_type.qc.value = 3 ∧ msg_type.vote.value = 4
      ∧ (∀ t : msg_type, t.value = 1 ∨ t.value = 2 ∨ t.value = 3 ∨ t.value = 4)
      ∧ (∀ s t : msg_type, s.value = t.value → s = t)
      ∧ (∀ t : msg_type, t.value < 2 ^ 8) := by
  refine ⟨rfl, rfl, rfl, rfl, ?_, ?_, ?_⟩
  · intro t; cases t <;> simp [msg_type.value]
  · intro s t h; cases s <;> cases t <;> simp [msg_type.value] at h ⊢
  · intro t; cases t <;> simp [msg_type.value]

end eosio.hotstuff.qc_chain

namespace eosio.testing.account_name_generator

/-- C19: for a `generator_id` above 960, `setPrefix` returns without touching
the state: the index vector, and with it `calc_name()`, is unchanged. -/
theorem setPrefix_above_max (g : account_name_generator) (generator_id : Int)
    (h : generator_id > 960) :
    g.setPrefix generator_id = .ok g
      ∧ (∀ g1, g.setPrefix generator_id = .ok g1 →
          g1._name_index_vec = g._name_index_vec ∧ g1.calc_name = g.calc_name) := by
  have hs : g.setPrefix generator_id = .ok g := by
    unfold setPrefix prefix_max
    rw [if_pos h]
  refine ⟨hs, ?_⟩
  intro g1 h1
  rw [hs] at h1
  cases h1
  exact ⟨rfl, rfl⟩

/-- Witness for C19 at `generator_id = 961` on a generator with prefix `2f`. -/
theorem setPrefix_above_max_witness :
    (961 : Int) > 960
      ∧ ((⟨[1, 10, 0, 0, 0, 0, 0, 0, 0, 0, 3, 4]⟩ : account_name_generator).setPrefix 961
            = .ok ⟨[1, 10, 0, 0, 0, 0, 0, 0, 0, 0, 3, 4]⟩
        ∧ (∀ g1, (⟨[1, 10, 0, 0, 0, 0, 0, 0, 0, 0, 3, 4]⟩ : account_name_generator).setPrefix 961
              = .ok g1 →
            g1._name_index_vec = [1, 10, 0, 0, 0, 0, 0, 0, 0, 0, 3, 4]
              ∧ g1.calc_name
                  = (⟨[1, 10, 0, 0, 0, 0, 0, 0, 0, 0, 3, 4]⟩ : account_name_generator).calc_name)) :=
  ⟨by decide, setPrefix_above_max ⟨[1, 10, 0, 0, 0, 0, 0, 0, 0, 0, 3, 4]⟩ 961 (by decide)⟩

end eosio.testing.account_name_generator

namespace eosio.testing.account_name_generator

/-- Helper: the character count is 31. -/
theorem acct_name_char_cnt_eq : acct_name_char_cnt = 31 := by decide

/-- Helper: reading the element that follows a prefix `A`. -/
theorem getD_append_cons (A : List Int) (x : Int) (suf : List Int) :
    (A ++ x :: suf).getD A.length 0 = x := by
  induction A with
  | nil => rfl
  | cons a A ih => simpa using ih

/-- Helper: writing the element that follows a prefix `A`. -/
theorem set_append_cons (A : List Int) (x y : Int) (suf : List Int) :
    (A ++ x :: suf).set A.length y = A ++ y :: suf := by
  induction A with
  | nil => rfl
  | cons a A ih => simp [ih]

/-- Helper: one level of the carry recursion, at the element after `A`. -/
theorem increment_from_step (A : List Int) (x : Int) (suf : List Int) :
    increment_from (A.length + 1) (A ++ x :: suf)
      = if x + 1 ≥ 31 then increment_from A.length (A ++ 0 :: suf)
        else .ok (A ++ (x + 1) :: suf) := by
  rw [increment_from]
  have hlt : A.length < (A ++ x :: suf).length := by simp
  rw [if_pos hlt]
  simp only [getD_append_cons, set_append_cons, acct_name_char_cnt_eq]

/-- Helper: the digit list has the length asked for. -/
theorem digitsBE_length (n k : Nat) : (digitsBE n k).length = n := by
  induction n generalizing k with
  | zero => rfl
  | succ n ih => simp [digitsBE, ih]

/-- Helper: every digit is in `[0, 31)`. -/
theorem digitsBE_range (n k : Nat) : ∀ d ∈ digitsBE n k, 0 ≤ d ∧ d < 31 := by
  induction n generalizing k with
  | zero => intro d hd; simp [digitsBE] at hd
  | succ n ih =>
    intro d hd
    simp only [digitsBE, List.mem_append, List.mem_singleton] at hd
    rcases hd with hd | hd
    · exact ih _ d hd
    · subst hd; omega

/-- Helper: the odometer step. On a vector `pre ++ digits(k) ++ suf` the call
`increment(pre.size() + n - 1)` yields `pre ++ digits(k + 1) ++ suf`, as long
as `k + 1` still has `n` digits. -/
theorem increment_from_digits (n : Nat) (pre : List Int) (k : Nat) (suf : List Int)
    (h : k + 1 < 31 ^ n) :
    increment_from (pre.length + n) (pre ++ (digitsBE n k ++ suf))
      = .ok (pre ++ (digitsBE n (k + 1) ++ suf)) := by
  induction n generalizing k suf with
  | zero => simp at h
  | succ n ih =>
    have hA : (pre ++ digitsBE n (k / 31)).length = pre.length + n := by
      simp [digitsBE_length]
    have hform : ∀ (j : Nat) (x : Int),
        pre ++ ((digitsBE n j ++ [x]) ++ suf) = (pre ++ digitsBE n j) ++ x :: suf := by
      intro j x; simp
    rw [pow_succ] at h
    show increment_from (pre.length + n + 1) (pre ++ ((digitsBE n (k / 31) ++ [_]) ++ suf)) = _
    rw [hform, ← hA, increment_from_step]
    by_cases hc : k % 31 = 30
    · have hcarry : ((k % 31 : Nat) : Int) + 1 ≥ 31 := by omega
      rw [if_pos hcarry, hA]
      have hk : k / 31 + 1 < 31 ^ n := by omega
      have := ih (k / 31) (0 :: suf) hk
      rw [List.append_assoc, this]
      have h1 : (k + 1) / 31 = k / 31 + 1 := by omega
      have h2 : (k + 1) % 31 = 0 := by omega
      simp [digitsBE, h1, h2]
    · have hnc : ¬ (((k % 31 : Nat) : Int) + 1 ≥ 31) := by omega
      rw [if_neg hnc]
      have h1 : (k + 1) / 31 = k / 31 := by omega
      have h2 : (k + 1) % 31 = k % 31 + 1 := by omega
      simp [digitsBE, h1, h2]

/-- Helper: the carry runs off the front of a block of 30s: the call
`increment(n - 1)` on `n` entries 30 ends in the access at position -1. -/
theorem increment_from_all_30 (n : Nat) (suf : List Int) :
    increment_from n (List.replicate n 30 ++ suf) = .error (-1) := by
  induction n generalizing suf with
  | zero => rfl
  | succ n ih =>
    have hform : List.replicate (n + 1) (30 : Int) ++ suf
        = List.replicate n 30 ++ 30 :: suf := by
      rw [List.replicate_succ']; simp
    have hlen : (List.replicate n (30 : Int)).length = n := List.length_replicate _ _
    rw [hform]
    have := increment_from_step (List.replicate n 30) 30 suf
    rw [hlen] at this
    rw [this, if_pos (by decide)]
    exact ih (0 :: suf)

/-- Helper: the digits of `31 ^ n - 1` are all 30. -/
theorem digitsBE_max (n k : Nat) (h : k + 1 = 31 ^ n) :
    digitsBE n k = List.replicate n 30 := by
  induction n generalizing k with
  | zero => rfl
  | succ n ih =>
    rw [pow_succ] at h
    have hpos : 0 < 31 ^ n := Nat.pos_pow_of_pos n (by decide)
    have h1 : k / 31 + 1 = 31 ^ n := by omega
    have h2 : k % 31 = 30 := by omega
    rw [digitsBE, ih _ h1, h2, List.replicate_succ']
    rfl

/-- Helper: a vector with every index in `[0, 31)` is the digit list of a
number. -/
theorem exists_digitsBE (l : List Int) (h : ∀ d ∈ l, 0 ≤ d ∧ d < 31) :
    ∃ k, k < 31 ^ l.length ∧ l = digitsBE l.length k := by
  induction l using List.reverseRecOn with
  | nil => exact ⟨0, by simp, rfl⟩
  | append_singleton l d ih =>
    have hl : ∀ e ∈ l, 0 ≤ e ∧ e < 31 := fun e he => h e (List.mem_append_left _ he)
    have hd := h d (List.mem_append_right _ (List.mem_singleton_self d))
    rcases ih hl with ⟨k, hk, hrep⟩
    refine ⟨k * 31 + d.toNat, ?_, ?_⟩
    · rw [List.length_append, List.length_singleton, pow_succ]; omega
    · have h1 : (k * 31 + d.toNat) / 31 = k := by omega
      have h2 : (((k * 31 + d.toNat) % 31 : Nat) : Int) = d := by omega
      rw [List.length_append, List.length_singleton, digitsBE, h1, h2, ← hrep]

end eosio.testing.account_name_generator

namespace eosio.testing.account_name_generator

/-- Helper: `increment()` is the carry recursion started at the last index. -/
theorem increment_eq (g : account_name_generator) :
    g.increment
      = (increment_from g._name_index_vec.length g._name_index_vec).map
          account_name_generator.mk := by
  unfold increment increment_index
  have h1 : ¬ ((g._name_index_vec.length : Int) - 1 < -1) := by omega
  have h2 : ((g._name_index_vec.length : Int) - 1 + 1).toNat = g._name_index_vec.length := by
    omega
  rw [if_neg h1, h2]

/-- Helper: `incrementPrefix()` is the carry recursion started at index 1. -/
theorem incrementPrefix_eq (g : account_name_generator) :
    g.incrementPrefix = (increment_from 2 g._name_index_vec).map account_name_generator.mk := by
  unfold incrementPrefix increment_index
  rfl

/-- Helper: `increment()` on `pre ++ digits(k)` gives `pre ++ digits(k + 1)`. -/
theorem increment_digits (n : Nat) (pre : List Int) (k : Nat) (h : k + 1 < 31 ^ n) :
    (⟨pre ++ digitsBE n k⟩ : account_name_generator).increment
      = .ok ⟨pre ++ digitsBE n (k + 1)⟩ := by
  rw [increment_eq]
  have hlen : (pre ++ digitsBE n k).length = pre.length + n := by
    simp [digitsBE_length]
  have := increment_from_digits n pre k [] h
  simp only [List.append_nil] at this
  show Except.map _ (increment_from (pre ++ digitsBE n k).length (pre ++ digitsBE n k)) = _
  rw [hlen, this]
  rfl

/-- Helper: `j` calls of `increment()` on `pre ++ digits(i)` give
`pre ++ digits(i + j)`. -/
theorem increments_digits (n : Nat) (pre : List Int) (j i : Nat) (h : i + j < 31 ^ n) :
    increments j (⟨pre ++ digitsBE n i⟩ : account_name_generator)
      = .ok ⟨pre ++ digitsBE n (i + j)⟩ := by
  induction j generalizing i with
  | zero => rfl
  | succ j ih =>
    rw [increments, increment_digits n pre i (by omega)]
    have := ih (i + 1) (by omega)
    rw [show i + (j + 1) = i + 1 + j by omega]
    exact this

/-- Helper: `n` calls of `incrementPrefix()` on `digits2(i) ++ rest` give
`digits2(i + n) ++ rest`. -/
theorem incrementPrefix_loop_digits (n i : Nat) (rest : List Int) (h : i + n < 31 ^ 2) :
    incrementPrefix_loop n (⟨digitsBE 2 i ++ rest⟩ : account_name_generator)
      = .ok ⟨digitsBE 2 (i + n) ++ rest⟩ := by
  induction n generalizing i with
  | zero => rfl
  | succ n ih =>
    have hstep : (⟨digitsBE 2 i ++ rest⟩ : account_name_generator).incrementPrefix
        = .ok ⟨digitsBE 2 (i + 1) ++ rest⟩ := by
      rw [incrementPrefix_eq]
      have := increment_from_digits 2 [] i rest (by omega)
      simp only [List.nil_append, List.length_nil, Nat.zero_add] at this
      show Except.map _ (increment_from 2 (digitsBE 2 i ++ rest)) = _
      rw [this]
      rfl
    rw [incrementPrefix_loop, hstep]
    have := ih (i + 1) (by omega)
    rw [show i + (n + 1) = i + 1 + n by omega]
    exact this

/-- Helper: the two base-31 digits of a number up to 960. -/
theorem digitsBE_two (i : Nat) (h : i ≤ 960) :
    digitsBE 2 i = [((i / 31 : Nat) : Int), ((i % 31 : Nat) : Int)] := by
  have h1 : i / 31 % 31 = i / 31 := by omega
  simp [digitsBE, h1]

/-- Helper: `setPrefix(i)` for `i` up to 960 on a vector `a :: b :: rest`. -/
theorem setPrefix_nat (a b : Int) (rest : List Int) (i : Nat) (h : i ≤ 960) :
    (⟨a :: b :: rest⟩ : account_name_generator).setPrefix (i : Int)
      = .ok ⟨((i / 31 : Nat) : Int) :: ((i % 31 : Nat) : Int) :: rest⟩ := by
  unfold setPrefix prefix_max
  have h1 : ¬ ((i : Int) > 960) := by omega
  have h2 : ¬ ((a :: b :: rest).length < 2) := by simp
  rw [if_neg h1, if_neg h2]
  have hz : ((a :: b :: rest).set 0 0).set 1 0 = digitsBE 2 0 ++ rest := by
    simp [digitsBE]
  have hloop := incrementPrefix_loop_digits i 0 rest (by norm_num; omega)
  simp only [Int.toNat_ofNat, hz, hloop, Nat.zero_add, digitsBE_two i h]
  rfl

/-- Helper: digit `j` of the digit list, in closed form. -/
theorem digitsBE_getD (n k j : Nat) (h : j < n) :
    (digitsBE n k).getD j 0 = (((k / 31 ^ (n - 1 - j)) % 31 : Nat) : Int) := by
  induction n generalizing k with
  | zero => omega
  | succ n ih =>
    rw [digitsBE]
    by_cases hj : j < n
    · rw [List.getD_append _ _ _ _ (by rw [digitsBE_length]; exact hj), ih _ hj,
        Nat.div_div_eq_div_mul, ← pow_succ']
      have : n - 1 - j + 1 = n + 1 - 1 - j := by omega
      rw [this]
    · have hjn : j = n := by omega
      subst hjn
      have := getD_append_cons (digitsBE j (k / 31)) ((k % 31 : Nat) : Int) []
      rw [digitsBE_length] at this
      rw [this]
      simp

end eosio.testing.account_name_generator

namespace eosio.testing.account_name_generator

/-- Helper: an index in `[0, 31)` reads a character of the alphabet, and the
character determines the index. -/
theorem char_map_at_in_range (d : Int) (h0 : 0 ≤ d) (h1 : d < 31) :
    ∃ c, char_map_at d = some c ∧ c ∈ "12345abcdefghijklmnopqrstuvwxyz".toList
      ∧ (char_map.indexOf c : Int) = d := by
  interval_cases d <;> exact ⟨_, rfl, by decide, by decide⟩

/-- Helper: two indices in `[0, 31)` that read the same character are equal. -/
theorem char_map_at_inj (d e : Int) (hd0 : 0 ≤ d) (hd1 : d < 31) (he0 : 0 ≤ e) (he1 : e < 31)
    (h : char_map_at d = char_map_at e) : d = e := by
  rcases char_map_at_in_range d hd0 hd1 with ⟨c, hc, _, hci⟩
  rcases char_map_at_in_range e he0 he1 with ⟨c2, hc2, _, hci2⟩
  rw [hc, hc2] at h
  have : c = c2 := Option.some.inj h
  rw [← hci, ← hci2, this]

/-- Helper: unfolding `calc_name` over a first index that reads a character. -/
theorem calc_name_loop_cons (d : Int) (l : List Int) (c : Char) (s : List Char)
    (hc : char_map_at d = some c) (hs : calc_name_loop l = some s) :
    calc_name_loop (d :: l) = some (c :: s) := by
  rw [calc_name_loop, hc, hs]

/-- Helper: on indices in `[0, 31)` the loop of `calc_name` yields one
character of the alphabet per index. -/
theorem calc_name_loop_in_range (l : List Int) (h : ∀ d ∈ l, 0 ≤ d ∧ d < 31) :
    ∃ s, calc_name_loop l = some s ∧ s.length = l.length
      ∧ ∀ c ∈ s, c ∈ "12345abcdefghijklmnopqrstuvwxyz".toList := by
  induction l with
  | nil => exact ⟨[], rfl, rfl, by simp⟩
  | cons d l ih =>
    rcases ih (fun e he => h e (List.mem_cons_of_mem _ he)) with ⟨s, hs, hlen, hmem⟩
    have hd := h d (List.mem_cons_self _ _)
    rcases char_map_at_in_range d hd.1 hd.2 with ⟨c, hc, hca, _⟩
    refine ⟨c :: s, calc_name_loop_cons d l c s hc hs, by simp [hlen], ?_⟩
    intro x hx
    rcases List.mem_cons.mp hx with hx | hx
    · rw [hx]; exact hca
    · exact hmem x hx

/-- Helper: the name of a vector that starts with two indices in `[0, 31)` and
goes on with indices in `[0, 31)` starts with their two characters. -/
theorem calc_name_loop_prefix (p q : Int) (l : List Int)
    (hp : 0 ≤ p ∧ p < 31) (hq : 0 ≤ q ∧ q < 31) (h : ∀ d ∈ l, 0 ≤ d ∧ d < 31) :
    ∃ c1 c2 s, calc_name_loop (p :: q :: l) = some (c1 :: c2 :: s)
      ∧ char_map_at p = some c1 ∧ char_map_at q = some c2 := by
  rcases calc_name_loop_in_range l h with ⟨s, hs, _, _⟩
  rcases char_map_at_in_range p hp.1 hp.2 with ⟨c1, hc1, _, _⟩
  rcases char_map_at_in_range q hq.1 hq.2 with ⟨c2, hc2, _, _⟩
  exact ⟨c1, c2, s,
    calc_name_loop_cons p _ c1 _ hc1 (calc_name_loop_cons q l c2 s hc2 hs), hc1, hc2⟩

end eosio.testing.account_name_generator

namespace eosio.testing.account_name_generator

/-- Helper: a name read off a non-empty vector splits into the character of
the first index and the name of the rest. -/
theorem calc_name_loop_cons_some (d : Int) (l : List Int) (name : List Char)
    (h : calc_name_loop (d :: l) = some name) :
    ∃ c s, char_map_at d = some c ∧ calc_name_loop l = some s ∧ name = c :: s := by
  rw [calc_name_loop] at h
  cases hc : char_map_at d with
  | none => simp [hc] at h
  | some c =>
    cases hs : calc_name_loop l with
    | none => simp [hc, hs] at h
    | some s =>
      simp only [hc, hs, Option.some.injEq] at h
      exact ⟨c, s, rfl, rfl, h.symm⟩

/-- Helper: a vector of twelve entries is two entries and ten more. -/
theorem vec_12_shape (l : List Int) (h : l.length = 12) :
    ∃ a b rest, l = a :: b :: rest ∧ rest.length = 10 ∧ rest = l.drop 2 := by
  match l, h with
  | a :: b :: rest, h => exact ⟨a, b, rest, rfl, by simpa using h, rfl⟩

/-- Helper: `setPrefix(id)` for `0 <= id <= 960` on a vector `a :: b :: rest`. -/
theorem setPrefix_int (a b : Int) (rest : List Int) (id : Int) (h0 : 0 ≤ id) (h1 : id ≤ 960) :
    (⟨a :: b :: rest⟩ : account_name_generator).setPrefix id
      = .ok ⟨(id / 31) :: (id % 31) :: rest⟩ := by
  obtain ⟨i, rfl⟩ := Int.eq_ofNat_of_zero_le h0
  have hq : ((i / 31 : Nat) : Int) = (i : Int) / 31 := by omega
  have hr : ((i % 31 : Nat) : Int) = (i : Int) % 31 := by omega
  rw [setPrefix_nat a b rest i (by omega), hq, hr]

/-- C13: for `0 <= id <= 960` and any prior state of twelve indices,
`setPrefix(id)` succeeds and leaves the first index equal to `id div 31`, the
second equal to `id mod 31` and the other ten unchanged; a name read from the
result starts with the characters `char_map[id div 31]` and
`char_map[id mod 31]`, both of the 31-character alphabet. On a fresh generator
id 5 gives a name starting `1a` and id 41 one starting `2f`. -/
theorem setPrefix_spec (g : account_name_generator) (id : Int)
    (hlen : g._name_index_vec.length = 12) (h0 : 0 ≤ id) (h1 : id ≤ 960) :
    (∃ g1, g.setPrefix id = .ok g1
        ∧ g1._name_index_vec = (id / 31) :: (id % 31) :: g._name_index_vec.drop 2
        ∧ g1._name_index_vec.length = 12
        ∧ g1._name_index_vec.getD 0 0 = id / 31
        ∧ g1._name_index_vec.getD 1 0 = id % 31
        ∧ (∀ j, 2 ≤ j → g1._name_index_vec.getD j 0 = g._name_index_vec.getD j 0)
        ∧ (∀ name, g1.calc_name = some name →
            name[0]? = char_map_at (id / 31) ∧ name[1]? = char_map_at (id % 31)))
      ∧ (∃ c1 c2, char_map_at (id / 31) = some c1 ∧ char_map_at (id % 31) = some c2
          ∧ c1 ∈ "12345abcdefghijklmnopqrstuvwxyz".toList
          ∧ c2 ∈ "12345abcdefghijklmnopqrstuvwxyz".toList)
      ∧ generated_name 5 0 = some "1a1111111111".toList
      ∧ generated_name 41 0 = some "2f1111111111".toList := by
  rcases vec_12_shape _ hlen with ⟨a, b, rest, hshape, hrest, hdrop⟩
  have hset : g.setPrefix id = .ok ⟨(id / 31) :: (id % 31) :: rest⟩ := by
    have : g = ⟨a :: b :: rest⟩ := by cases g; simp only at hshape; rw [hshape]
    rw [this]
    exact setPrefix_int a b rest id h0 h1
  refine ⟨⟨_, hset, by rw [hdrop], by simp [hrest], rfl, rfl, ?_, ?_⟩, ?_, rfl, rfl⟩
  · intro j hj
    obtain ⟨m, rfl⟩ : ∃ m, j = m + 2 := ⟨j - 2, by omega⟩
    rw [hshape]
    simp
  · intro name hname
    rcases calc_name_loop_cons_some _ _ _ hname with ⟨c1, s1, hc1, hs1, rfl⟩
    rcases calc_name_loop_cons_some _ _ _ hs1 with ⟨c2, s2, hc2, _, rfl⟩
    exact ⟨by rw [hc1]; simp, by rw [hc2]; simp⟩
  · rcases char_map_at_in_range (id / 31) (by omega) (by omega) with ⟨c1, hc1, hm1, _⟩
    rcases char_map_at_in_range (id % 31) (by omega) (by omega) with ⟨c2, hc2, hm2, _⟩
    exact ⟨c1, c2, hc1, hc2, hm1, hm2⟩

end eosio.testing.account_name_generator

namespace eosio.testing.account_name_generator

/-- Witness for C13: `setPrefix(41)` on a fresh generator. -/
theorem setPrefix_spec_witness :
    init._name_index_vec.length = 12 ∧ (0 : Int) ≤ 41 ∧ (41 : Int) ≤ 960
      ∧ ((∃ g1, init.setPrefix 41 = .ok g1
          ∧ g1._name_index_vec = (41 / 31) :: (41 % 31) :: init._name_index_vec.drop 2
          ∧ g1._name_index_vec.length = 12
          ∧ g1._name_index_vec.getD 0 0 = 41 / 31
          ∧ g1._name_index_vec.getD 1 0 = 41 % 31
          ∧ (∀ j, 2 ≤ j → g1._name_index_vec.getD j 0 = init._name_index_vec.getD j 0)
          ∧ (∀ name, g1.calc_name = some name →
              name[0]? = char_map_at (41 / 31) ∧ name[1]? = char_map_at (41 % 31)))
        ∧ (∃ c1 c2, char_map_at (41 / 31) = some c1 ∧ char_map_at (41 % 31) = some c2
            ∧ c1 ∈ "12345abcdefghijklmnopqrstuvwxyz".toList
            ∧ c2 ∈ "12345abcdefghijklmnopqrstuvwxyz".toList)
        ∧ generated_name 5 0 = some "1a1111111111".toList
        ∧ generated_name 41 0 = some "2f1111111111".toList) :=
  ⟨by decide, by decide, by decide, setPrefix_spec init 41 (by decide) (by decide) (by decide)⟩

/-- C14: `increment()` counts in base 31 on the right ten characters: from a
fresh generator, for every `k < 31^10`, `k` calls of `increment()` succeed and
leave the first two indices 0 and the last ten equal to the ten base-31 digits
of `k`, most significant first; `k = 30` gives a name ending in `z` and
`k = 31` one ending in `21`. -/
theorem increments_spec (k : Nat) (h : k < 31 ^ 10) :
    (∃ g1, increments k init = .ok g1
        ∧ g1._name_index_vec = 0 :: 0 :: digitsBE 10 k
        ∧ g1._name_index_vec.length = 12
        ∧ (∀ j, j < 10 →
            g1._name_index_vec.getD (2 + j) 0 = (((k / 31 ^ (9 - j)) % 31 : Nat) : Int)))
      ∧ (increments 30 init = .ok ⟨[0, 0, 0, 0, 0, 0, 0, 0, 0, 0, 0, 30]⟩
          ∧ (⟨[0, 0, 0, 0, 0, 0, 0, 0, 0, 0, 0, 30]⟩ : account_name_generator).calc_name
              = some "11111111111z".toList)
      ∧ (increments 31 init = .ok ⟨[0, 0, 0, 0, 0, 0, 0, 0, 0, 0, 1, 0]⟩
          ∧ (⟨[0, 0, 0, 0, 0, 0, 0, 0, 0, 0, 1, 0]⟩ : account_name_generator).calc_name
              = some "111111111121".toList) := by
  have hrun := increments_digits 10 [0, 0] k 0 (by omega)
  rw [Nat.zero_add] at hrun
  refine ⟨⟨_, hrun, rfl, by simp [digitsBE_length], ?_⟩, ⟨rfl, by decide⟩, ⟨rfl, by decide⟩⟩
  intro j hj
  show ((0 : Int) :: 0 :: digitsBE 10 k).getD (2 + j) 0 = _
  rw [show 2 + j = j + 2 by omega]
  simp only [List.getD_cons_succ]
  exact digitsBE_getD 10 k j hj

/-- Witness for C14 at `k = 31`. -/
theorem increments_spec_witness :
    31 < 31 ^ 10
      ∧ ((∃ g1, increments 31 init = .ok g1
          ∧ g1._name_index_vec = 0 :: 0 :: digitsBE 10 31
          ∧ g1._name_index_vec.length = 12
          ∧ (∀ j, j < 10 →
              g1._name_index_vec.getD (2 + j) 0 = (((31 / 31 ^ (9 - j)) % 31 : Nat) : Int)))
        ∧ (increments 30 init = .ok ⟨[0, 0, 0, 0, 0, 0, 0, 0, 0, 0, 0, 30]⟩
            ∧ (⟨[0, 0, 0, 0, 0, 0, 0, 0, 0, 0, 0, 30]⟩ : account_name_generator).calc_name
                = some "11111111111z".toList)
        ∧ (increments 31 init = .ok ⟨[0, 0, 0, 0, 0, 0, 0, 0, 0, 0, 1, 0]⟩
            ∧ (⟨[0, 0, 0, 0, 0, 0, 0, 0, 0, 0, 1, 0]⟩ : account_name_generator).calc_name
                = some "111111111121".toList)) :=
  ⟨by decide, increments_spec 31 (by decide)⟩

/-- C15 (the code at a failing input): `31^10 - 1` calls of `increment()` on a
fresh generator lead to the indices `0, 0, 30, ..., 30` (name `11zzzzzzzzzz`);
one more call of `increment()` carries into the second index and gives
`0, 1, 0, ..., 0`, whose name `121111111111` starts with the prefix of
generator 1 and is the first name that generator hands out. -/
theorem increment_changes_prefix :
    increments (31 ^ 10 - 1) init = .ok ⟨0 :: 0 :: List.replicate 10 30⟩
      ∧ (⟨0 :: 0 :: List.replicate 10 30⟩ : account_name_generator).increment
          = .ok ⟨0 :: 1 :: List.replicate 10 0⟩
      ∧ (⟨0 :: 0 :: List.replicate 10 30⟩ : account_name_generator).calc_name
          = some "11zzzzzzzzzz".toList
      ∧ (⟨0 :: 1 :: List.replicate 10 0⟩ : account_name_generator).calc_name
          = some "121111111111".toList
      ∧ (⟨0 :: 1 :: List.replicate 10 0⟩ : account_name_generator)._name_index_vec.getD 1 0
          ≠ (⟨0 :: 0 :: List.replicate 10 30⟩ : account_name_generator)._name_index_vec.getD 1 0
      ∧ generated_name 1 0 = some "121111111111".toList := by
  have hrun := increments_digits 10 [0, 0] (31 ^ 10 - 1) 0 (by norm_num)
  rw [Nat.zero_add, digitsBE_max 10 (31 ^ 10 - 1) (by norm_num)] at hrun
  exact ⟨hrun, rfl, by decide, by decide, by decide, rfl⟩

end eosio.testing.account_name_generator

namespace eosio.testing.account_name_generator

/-- Helper: the name generator `id` hands out after `j` increments starts with
the characters of `id div 31` and `id mod 31`. -/
theorem generated_name_prefix (id : Int) (j : Nat) (h0 : 0 ≤ id) (h1 : id ≤ 960)
    (hj : j < 31 ^ 10) :
    ∃ c1 c2 s, generated_name id j = some (c1 :: c2 :: s)
      ∧ char_map_at (id / 31) = some c1 ∧ char_map_at (id % 31) = some c2 := by
  have hset : init.setPrefix id = .ok ⟨[id / 31, id % 31] ++ digitsBE 10 0⟩ :=
    setPrefix_int 0 0 (List.replicate 10 0) id h0 h1
  have hrun := increments_digits 10 [id / 31, id % 31] j 0 (by omega)
  rw [Nat.zero_add] at hrun
  rcases calc_name_loop_prefix (id / 31) (id % 31) (digitsBE 10 j)
    ⟨by omega, by omega⟩ ⟨by omega, by omega⟩ (digitsBE_range 10 j) with ⟨c1, c2, s, hname, hc1, hc2⟩
  refine ⟨c1, c2, s, ?_, hc1, hc2⟩
  unfold generated_name
  rw [hset]
  simp only [hrun]
  exact hname

/-- C16: names of parallel generators never collide: for ids `a != b` in
`[0, 960]` and `j, k < 31^10`, a fresh generator after `setPrefix(a)` and `j`
calls of `increment()` and one after `setPrefix(b)` and `k` calls both yield a
name, and the two names differ. -/
theorem generated_name_no_collision (a b : Int) (j k : Nat)
    (ha0 : 0 ≤ a) (ha1 : a ≤ 960) (hb0 : 0 ≤ b) (hb1 : b ≤ 960) (hab : a ≠ b)
    (hj : j < 31 ^ 10) (hk : k < 31 ^ 10) :
    ∃ n1 n2, generated_name a j = some n1 ∧ generated_name b k = some n2 ∧ n1 ≠ n2 := by
  rcases generated_name_prefix a j ha0 ha1 hj with ⟨c1, c2, s, hn1, hc1, hc2⟩
  rcases generated_name_prefix b k hb0 hb1 hk with ⟨e1, e2, t, hn2, he1, he2⟩
  refine ⟨_, _, hn1, hn2, ?_⟩
  intro heq
  have h1 : c1 = e1 := by injection heq
  have h2 : c2 = e2 := by
    injection heq with _ htail
    injection htail
  have hq : a / 31 = b / 31 :=
    char_map_at_inj _ _ (by omega) (by omega) (by omega) (by omega) (by rw [hc1, he1, h1])
  have hr : a % 31 = b % 31 :=
    char_map_at_inj _ _ (by omega) (by omega) (by omega) (by omega) (by rw [hc2, he2, h2])
  exact hab (by omega)

/-- Witness for C16: generators 5 and 41, after 0 and 31 increments. -/
theorem generated_name_no_collision_witness :
    (0 : Int) ≤ 5 ∧ (5 : Int) ≤ 960 ∧ (0 : Int) ≤ 41 ∧ (41 : Int) ≤ 960 ∧ (5 : Int) ≠ 41
      ∧ 0 < 31 ^ 10 ∧ 31 < 31 ^ 10
      ∧ ∃ n1 n2, generated_name 5 0 = some n1 ∧ generated_name 41 31 = some n2 ∧ n1 ≠ n2 :=
  ⟨by decide, by decide, by decide, by decide, by decide, by decide, by decide,
    generated_name_no_collision 5 41 0 31 (by decide) (by decide) (by decide) (by decide)
      (by decide) (by decide) (by decide)⟩

/-- Helper: on twelve indices in `[0, 31)`, `increment()` either succeeds with
twelve indices in `[0, 31)`, when not all are 30, or ends in the access at
position -1, when all are 30. -/
theorem increment_cases (g : account_name_generator)
    (hlen : g._name_index_vec.length = 12) (hr : g.in_range) :
    ((¬ ∀ d ∈ g._name_index_vec, d = 30)
        ∧ ∃ g1, g.increment = .ok g1 ∧ g1.in_range ∧ g1._name_index_vec.length = 12)
      ∨ ((∀ d ∈ g._name_index_vec, d = 30) ∧ g.increment = .error (-1)) := by
  have hr31 : ∀ d ∈ g._name_index_vec, 0 ≤ d ∧ d < 31 := by
    intro d hd
    have := hr d hd
    rwa [acct_name_char_cnt_eq] at this
  rcases exists_digitsBE _ hr31 with ⟨k, hk, hrep⟩
  rw [hlen] at hk hrep
  have hg : g = ⟨[] ++ digitsBE 12 k⟩ := by
    cases g; simp only at hrep; rw [hrep]; rfl
  have hall : (∀ d ∈ g._name_index_vec, d = 30) → g.increment = .error (-1) := by
    intro h30
    have hvec : g._name_index_vec = List.replicate 12 30 ++ [] := by
      rw [List.append_nil]
      exact List.eq_replicate_iff.mpr ⟨hlen, h30⟩
    rw [increment_eq, hlen, hvec, increment_from_all_30]
    rfl
  by_cases hmax : k + 1 < 31 ^ 12
  · left
    have hinc : g.increment = .ok ⟨[] ++ digitsBE 12 (k + 1)⟩ := by
      rw [hg]; exact increment_digits 12 [] k hmax
    refine ⟨?_, _, hinc, ?_, by simp [digitsBE_length]⟩
    · intro h30
      rw [hall h30] at hinc
      cases hinc
    · intro d hd
      rw [acct_name_char_cnt_eq]
      exact digitsBE_range 12 (k + 1) d (by simpa using hd)
  · right
    have h30 : ∀ d ∈ g._name_index_vec, d = 30 := by
      intro d hd
      rw [hrep, digitsBE_max 12 k (by omega)] at hd
      exact List.eq_of_mem_replicate hd
    exact ⟨h30, hall h30⟩

end eosio.testing.account_name_generator

namespace eosio.testing.account_name_generator

/-- Helper: `setPrefix` keeps twelve indices in `[0, 31)` so, for any id. -/
theorem setPrefix_in_range (g : account_name_generator) (id : Int)
    (hlen : g._name_index_vec.length = 12) (hr : g.in_range) :
    ∃ g1, g.setPrefix id = .ok g1 ∧ g1.in_range ∧ g1._name_index_vec.length = 12 := by
  rcases vec_12_shape _ hlen with ⟨a, b, rest, hshape, hrest, _⟩
  have hg : g = ⟨a :: b :: rest⟩ := by cases g; simp only at hshape; rw [hshape]
  have hrest_range : ∀ d ∈ rest, 0 ≤ d ∧ d < acct_name_char_cnt := by
    intro d hd
    exact hr d (by rw [hshape]; exact List.mem_cons_of_mem _ (List.mem_cons_of_mem _ hd))
  have hrange : ∀ p q : Int, 0 ≤ p → p < 31 → 0 ≤ q → q < 31 →
      (⟨p :: q :: rest⟩ : account_name_generator).in_range := by
    intro p q hp0 hp1 hq0 hq1 d hd
    rw [acct_name_char_cnt_eq]
    rcases List.mem_cons.mp hd with h | h
    · rw [h]; exact ⟨hp0, hp1⟩
    · rcases List.mem_cons.mp h with h | h
      · rw [h]; exact ⟨hq0, hq1⟩
      · have := hrest_range d h
        rwa [acct_name_char_cnt_eq] at this
  by_cases hmax : id > 960
  · refine ⟨g, ?_, hr, hlen⟩
    unfold setPrefix prefix_max
    rw [if_pos hmax]
  · by_cases hneg : id < 0
    · refine ⟨⟨0 :: 0 :: rest⟩, ?_, hrange 0 0 (by decide) (by decide) (by decide) (by decide),
        by simp [hrest]⟩
      rw [hg]
      unfold setPrefix prefix_max
      have hz : id.toNat = 0 := by omega
      have h2 : ¬ ((a :: b :: rest).length < 2) := by simp
      rw [if_neg hmax, if_neg h2, hz]
      rfl
    · refine ⟨⟨(id / 31) :: (id % 31) :: rest⟩, ?_,
        hrange _ _ (by omega) (by omega) (by omega) (by omega), by simp [hrest]⟩
      rw [hg]
      exact setPrefix_int a b rest id (by omega) (by omega)

/-- C17: every index is in `[0, 31)` in a freshly constructed generator; on a
generator of twelve indices in `[0, 31)` this is preserved by `setPrefix(id)`
for any id and by `increment()` whenever not all twelve indices are 30; and
under it `calc_name()` returns exactly 12 characters, each one of the 31
characters of the alphabet and none the terminating NUL. -/
theorem in_range_invariant (g : account_name_generator) (id : Int)
    (hlen : g._name_index_vec.length = 12) (hr : g.in_range) :
    (init.in_range ∧ init._name_index_vec.length = 12)
      ∧ (∃ g1, g.setPrefix id = .ok g1 ∧ g1.in_range ∧ g1._name_index_vec.length = 12)
      ∧ ((¬ ∀ d ∈ g._name_index_vec, d = 30) →
          ∃ g1, g.increment = .ok g1 ∧ g1.in_range ∧ g1._name_index_vec.length = 12)
      ∧ (∃ name, g.calc_name = some name ∧ name.length = 12
          ∧ (∀ c ∈ name, c ∈ "12345abcdefghijklmnopqrstuvwxyz".toList)
          ∧ Char.ofNat 0 ∉ name) := by
  refine ⟨⟨by decide, rfl⟩, setPrefix_in_range g id hlen hr, ?_, ?_⟩
  · intro hnot
    rcases increment_cases g hlen hr with ⟨_, h⟩ | ⟨h30, _⟩
    · exact h
    · exact absurd h30 hnot
  · have hr31 : ∀ d ∈ g._name_index_vec, 0 ≤ d ∧ d < 31 := by
      intro d hd
      have := hr d hd
      rwa [acct_name_char_cnt_eq] at this
    rcases calc_name_loop_in_range _ hr31 with ⟨s, hs, hslen, hmem⟩
    refine ⟨s, hs, by rw [hslen, hlen], hmem, ?_⟩
    intro h0
    have := hmem _ h0
    revert this
    decide

/-- Witness for C17: a generator with prefix `2f`, and `setPrefix(-3)`. -/
theorem in_range_invariant_witness :
    (⟨[1, 10, 0, 0, 0, 0, 0, 0, 0, 0, 3, 30]⟩ : account_name_generator)._name_index_vec.length
        = 12
      ∧ (⟨[1, 10, 0, 0, 0, 0, 0, 0, 0, 0, 3, 30]⟩ : account_name_generator).in_range
      ∧ ((init.in_range ∧ init._name_index_vec.length = 12)
        ∧ (∃ g1, (⟨[1, 10, 0, 0, 0, 0, 0, 0, 0, 0, 3, 30]⟩ : account_name_generator).setPrefix
              (-3) = .ok g1 ∧ g1.in_range ∧ g1._name_index_vec.length = 12)
        ∧ ((¬ ∀ d ∈ (⟨[1, 10, 0, 0, 0, 0, 0, 0, 0, 0, 3, 30]⟩ :
                account_name_generator)._name_index_vec, d = 30) →
            ∃ g1, (⟨[1, 10, 0, 0, 0, 0, 0, 0, 0, 0, 3, 30]⟩ : account_name_generator).increment
              = .ok g1 ∧ g1.in_range ∧ g1._name_index_vec.length = 12)
        ∧ (∃ name, (⟨[1, 10, 0, 0, 0, 0, 0, 0, 0, 0, 3, 30]⟩ : account_name_generator).calc_name
              = some name ∧ name.length = 12
            ∧ (∀ c ∈ name, c ∈ "12345abcdefghijklmnopqrstuvwxyz".toList)
            ∧ Char.ofNat 0 ∉ name)) :=
  ⟨by decide, by decide,
    in_range_invariant ⟨[1, 10, 0, 0, 0, 0, 0, 0, 0, 0, 3, 30]⟩ (-3) (by decide) (by decide)⟩

/-- C20: on twelve indices in `[0, 31)` the carry recursion of `increment()`
stays inside the vector (`increment()` succeeds, every access being at a
position in `0..11`) exactly when not all twelve indices are 30; when all
twelve are 30 the carry reaches position -1, an out-of-range access, and this
is the only way it fails. -/
theorem increment_carry_bounds (g : account_name_generator)
    (hlen : g._name_index_vec.length = 12) (hr : g.in_range) :
    ((∃ g1, g.increment = .ok g1) ↔ ¬ ∀ d ∈ g._name_index_vec, d = 30)
      ∧ ((∀ d ∈ g._name_index_vec, d = 30) → g.increment = .error (-1))
      ∧ (∀ e, g.increment = .error e → e = -1 ∧ ∀ d ∈ g._name_index_vec, d = 30) := by
  rcases increment_cases g hlen hr with ⟨hnot, g1, hg1, _, _⟩ | ⟨h30, herr⟩
  · refine ⟨⟨fun _ => hnot, fun _ => ⟨g1, hg1⟩⟩, fun h30 => absurd h30 hnot, ?_⟩
    intro e he
    rw [hg1] at he
    cases he
  · refine ⟨⟨?_, fun hnot => absurd h30 hnot⟩, fun _ => herr, ?_⟩
    · rintro ⟨g1, hg1⟩
      rw [herr] at hg1
      cases hg1
    · intro e he
      rw [herr] at he
      cases he
      exact ⟨rfl, h30⟩

/-- Witness for C20: the generator whose twelve indices are all 30. -/
theorem increment_carry_bounds_witness :
    (⟨List.replicate 12 30⟩ : account_name_generator)._name_index_vec.length = 12
      ∧ (⟨List.replicate 12 30⟩ : account_name_generator).in_range
      ∧ (((∃ g1, (⟨List.replicate 12 30⟩ : account_name_generator).increment = .ok g1)
            ↔ ¬ ∀ d ∈ (⟨List.replicate 12 30⟩ : account_name_generator)._name_index_vec, d = 30)
        ∧ ((∀ d ∈ (⟨List.replicate 12 30⟩ : account_name_generator)._name_index_vec, d = 30) →
            (⟨List.replicate 12 30⟩ : account_name_generator).increment = .error (-1))
        ∧ (∀ e, (⟨List.replicate 12 30⟩ : account_name_generator).increment = .error e →
            e = -1
              ∧ ∀ d ∈ (⟨List.replicate 12 30⟩ : account_name_generator)._name_index_vec,
                  d = 30)) :=
  ⟨by decide, by decide, increment_carry_bounds ⟨List.replicate 12 30⟩ (by decide) (by decide)⟩

end eosio.testing.account_name_generator

namespace boost.dynamic_bitset

/-- Helper: `set(pos)` keeps the bit count and the number of blocks. -/
theorem set_shape {w : Nat} (bs : dynamic_bitset w) (pos : Nat) :
    (bs.set pos).m_num_bits = bs.m_num_bits
      ∧ (bs.set pos).m_bits.length = bs.m_bits.length := by
  unfold set
  simp

/-- Helper: after `set(pos)` on a position inside the block vector, bit `pos`
is set and every other bit is as before. -/
theorem set_test {w : Nat} (bs : dynamic_bitset w) (pos j : Nat)
    (h : pos / w < bs.m_bits.length) :
    (bs.set pos).m_unchecked_test j = (decide (j = pos) || bs.m_unchecked_test j) := by
  rw [m_unchecked_test_eq, m_unchecked_test_eq]
  unfold set
  simp only [List.getD_eq_getElem?_getD]
  by_cases hb : j / w = pos / w
  · rw [hb, List.getElem?_set_self h]
    simp only [Option.getD_some, Nat.testBit_or, Nat.one_shiftLeft, Nat.testBit_two_pow]
    by_cases hr : pos % w = j % w
    · have hj : j = pos := by
        have h1 := Nat.div_add_mod j w
        have h2 := Nat.div_add_mod pos w
        rw [hb, ← hr] at h1
        omega
      simp [hr, hj]
    · have hj : j ≠ pos := fun hjp => hr (by rw [hjp])
      simp [hr, hj, Bool.or_comm]
  · have hj : j ≠ pos := fun hjp => hb (by rw [hjp])
    rw [List.getElem?_set_ne (fun hne => hb hne.symm)]
    simp [hj]

/-- Helper: in a 64-bit-block bitset with `calc_num_blocks(size())` blocks,
every position below `size()` lies inside the block vector. -/
theorem block_index_lt_64 (bs : dynamic_bitset 64)
    (hlen : bs.m_bits.length = calc_num_blocks 64 bs.m_num_bits) (pos : Nat)
    (h : pos < bs.m_num_bits) : pos / 64 < bs.m_bits.length := by
  rw [hlen]
  unfold calc_num_blocks
  by_cases hm : bs.m_num_bits % 64 = 0
  · simp [hm]; omega
  · simp [hm]; omega

/-- Helper: the loop of `init_from_string` over characters `'0'` and `'1'`
succeeds, keeps the shape, and sets exactly the bits whose character is `'1'`. -/
theorem init_from_string_loop_spec (cs : List Char) (i : Nat) (bs : dynamic_bitset 64)
    (hc : ∀ c ∈ cs, c = '0' ∨ c = '1')
    (hlen : bs.m_bits.length = calc_num_blocks 64 bs.m_num_bits)
    (hi : i + cs.length ≤ bs.m_num_bits) :
    ∃ r, init_from_string_loop cs i bs = some r
      ∧ r.m_num_bits = bs.m_num_bits
      ∧ r.m_bits.length = bs.m_bits.length
      ∧ ∀ j, r.m_unchecked_test j
          = ((decide (i ≤ j) && (cs.getD (j - i) '0' == '1')) || bs.m_unchecked_test j) := by
  induction cs generalizing i bs with
  | nil => exact ⟨bs, rfl, rfl, rfl, by intro j; simp⟩
  | cons c cs ih =>
    have hcs : ∀ c ∈ cs, c = '0' ∨ c = '1' := fun d hd => hc d (List.mem_cons_of_mem _ hd)
    have hlen' : i + 1 + cs.length ≤ bs.m_num_bits := by
      simp only [List.length_cons] at hi; omega
    rcases hc c (List.mem_cons_self _ _) with h0 | h1
    · subst h0
      rcases ih (i + 1) bs hcs hlen hlen' with ⟨r, hr, hn, hl, ht⟩
      refine ⟨r, ?_, hn, hl, ?_⟩
      · rw [init_from_string_loop, if_neg (by decide), if_pos rfl]
        exact hr
      · intro j
        rw [ht j]
        by_cases hj : i + 1 ≤ j
        · obtain ⟨m, rfl⟩ : ∃ m, j = i + 1 + m := ⟨j - (i + 1), by omega⟩
          have e1 : i + 1 + m - (i + 1) = m := by omega
          have e2 : i + 1 + m - i = m + 1 := by omega
          have e3 : i ≤ i + 1 + m := by omega
          simp [e1, e2, e3]
        · by_cases hji : j = i
          · subst hji; simp
          · have e1 : ¬ (i ≤ j) := by omega
            simp [hj, e1]
    · subst h1
      have hpos : i / 64 < bs.m_bits.length :=
        block_index_lt_64 bs hlen i (by simp only [List.length_cons] at hi; omega)
      have hshape := set_shape bs i
      rcases ih (i + 1) (bs.set i) hcs (by rw [hshape.2, hshape.1]; exact hlen)
        (by rw [hshape.1]; exact hlen') with ⟨r, hr, hn, hl, ht⟩
      refine ⟨r, ?_, by rw [hn, hshape.1], by rw [hl, hshape.2], ?_⟩
      · rw [init_from_string_loop, if_pos rfl]
        exact hr
      · intro j
        rw [ht j, set_test bs i j hpos]
        by_cases hj : i + 1 ≤ j
        · obtain ⟨m, rfl⟩ : ∃ m, j = i + 1 + m := ⟨j - (i + 1), by omega⟩
          have e1 : i + 1 + m - (i + 1) = m := by omega
          have e2 : i + 1 + m - i = m + 1 := by omega
          have e3 : i ≤ i + 1 + m := by omega
          have e4 : ¬ (i + 1 + m = i) := by omega
          simp [e1, e2, e3, e4]
        · by_cases hji : j = i
          · subst hji; simp
          · have e1 : ¬ (i ≤ j) := by omega
            simp [hj, e1, hji]

end boost.dynamic_bitset

namespace boost.dynamic_bitset

/-- Helper: `to_string` writes one character per bit. -/
theorem to_string_length {w : Nat} (bs : dynamic_bitset w) :
    bs.to_string.length = bs.m_num_bits := by
  unfold to_string size
  simp

/-- Helper: `to_string` writes only the characters `'0'` and `'1'`. -/
theorem to_string_chars {w : Nat} (bs : dynamic_bitset w) :
    ∀ c ∈ bs.to_string, c = '0' ∨ c = '1' := by
  intro c hc
  unfold to_string at hc
  rcases List.mem_map.mp hc with ⟨i, _, hi⟩
  by_cases ht : bs.m_unchecked_test i = true
  · rw [if_pos ht] at hi; exact Or.inr hi.symm
  · rw [if_neg ht] at hi; exact Or.inl hi.symm

/-- Helper: read from the last character backwards, `to_string` shows bit `j`
at step `j`. -/
theorem to_string_reverse_getD {w : Nat} (bs : dynamic_bitset w) (j : Nat)
    (hj : j < bs.m_num_bits) :
    (bs.to_string.reverse.getD j '0' == '1') = bs.m_unchecked_test j := by
  unfold to_string size
  rw [← List.map_reverse, List.reverse_reverse, List.getD_eq_getElem?_getD,
    List.getElem?_map, List.getElem?_range hj]
  cases h : bs.m_unchecked_test j <;> simp [h]

/-- Helper: the string constructor on a string of `'0'` and `'1'` succeeds with
one bit per character, bit `j` being set iff the `j`-th character from the end
is `'1'`. -/
theorem init_from_string_spec (s : List Char) (hc : ∀ c ∈ s, c = '0' ∨ c = '1') :
    ∃ r, init_from_string 64 s = some r ∧ r.m_num_bits = s.length
      ∧ ∀ j, r.m_unchecked_test j = (s.reverse.getD j '0' == '1') := by
  have hz : ∀ b ∈ (⟨vector_resize [] (calc_num_blocks 64 s.length) 0, s.length⟩ :
      dynamic_bitset 64).m_bits, b = 0 := by
    intro b hb
    rw [vector_resize_nil] at hb
    exact List.eq_of_mem_replicate hb
  rcases init_from_string_loop_spec s.reverse 0
      (⟨vector_resize [] (calc_num_blocks 64 s.length) 0, s.length⟩ : dynamic_bitset 64)
      (fun c hcm => hc c (List.mem_reverse.mp hcm))
      (by rw [vector_resize_nil]; simp)
      (by simp) with ⟨r, hr, hn, _, ht⟩
  refine ⟨r, hr, hn, ?_⟩
  intro j
  rw [ht j, m_unchecked_test_of_zero _ hz]
  simp

/-- Helper: the bitset (64-bit blocks) read back from `to_string(bs)` has the
size of `bs` and the bits of `bs`, whatever the block type of `bs`. -/
theorem init_from_string_to_string {w : Nat} (bs : dynamic_bitset w) :
    ∃ r, init_from_string 64 bs.to_string = some r
      ∧ r.size = bs.size
      ∧ (∀ j, j < bs.size → r.m_unchecked_test j = bs.m_unchecked_test j)
      ∧ r.bit_list = bs.bit_list := by
  rcases init_from_string_spec bs.to_string (to_string_chars bs) with ⟨r, hr, hn, ht⟩
  have hsize : r.size = bs.size := by
    unfold size; rw [hn, to_string_length]
  have hbits : ∀ j, j < bs.size → r.m_unchecked_test j = bs.m_unchecked_test j := by
    intro j hj
    rw [ht j]
    exact to_string_reverse_getD bs j hj
  refine ⟨r, hr, hsize, hbits, ?_⟩
  unfold bit_list
  rw [hsize]
  exact List.map_congr_left (fun j hj => hbits j (List.mem_range.mp hj))

end boost.dynamic_bitset

namespace eosio.hotstuff

open boost eosio.chain

/-- Helper: the string a `reset` of the string-backed certificate stores. -/
theorem chain_reset_string (qc : eosio.chain.quorum_certificate) (p : sha256) (n : Nat) :
    (qc.reset p n).active_finalizers = List.replicate n '0' := by
  have hr := dynamic_bitset.resize_empty_set (w := 64) n
  show ((dynamic_bitset.empty_set : dynamic_bitset 64).resize n).to_string = _
  rw [dynamic_bitset.to_string_of_clear _ hr.2, hr.1]

/-- Helper: the bitset a `reset` of the bitset-backed certificate stores prints
as a run of `'0'`. -/
theorem reset_string (q : quorum_certificate) (p : sha256) (n : Nat) :
    (q.reset p n).active_finalizers.to_string = List.replicate n '0' := by
  have hz : ∀ b ∈ (dynamic_bitset.init_from_unsigned_long 32 n).m_bits, b = 0 := by
    intro b hb
    unfold dynamic_bitset.init_from_unsigned_long at hb
    rw [dynamic_bitset.vector_resize_nil] at hb
    exact List.eq_of_mem_replicate hb
  show (dynamic_bitset.init_from_unsigned_long 32 n).to_string = _
  rw [dynamic_bitset.to_string_of_clear _
    (fun pos => dynamic_bitset.m_unchecked_test_of_zero _ hz pos)]
  rfl

/-- Helper: the bitset of a bitset-backed certificate constructed with a size
prints as a run of `'0'`. -/
theorem init_string (n : Nat) :
    (quorum_certificate.init n).active_finalizers.to_string = List.replicate n '0' := by
  have hr := dynamic_bitset.resize_empty_set (w := 32) n
  show ((dynamic_bitset.empty_set : dynamic_bitset 32).resize n).to_string = _
  rw [dynamic_bitset.to_string_of_clear _ hr.2, hr.1]

/-- Helper: a non-empty string of `'0'` and `'1'` passes the assertion of the
string-backed `get_active_finalizers()` and of the string constructor. -/
theorem chain_get_active_finalizers_some (qc : eosio.chain.quorum_certificate)
    (hne : qc.active_finalizers ≠ [])
    (hc : ∀ c ∈ qc.active_finalizers, c = '0' ∨ c = '1') :
    ∃ r, qc.get_active_finalizers = some r ∧ r.size = qc.active_finalizers.length := by
  rcases dynamic_bitset.init_from_string_spec qc.active_finalizers hc with ⟨r, hr, hn, _⟩
  refine ⟨r, ?_, hn⟩
  unfold eosio.chain.quorum_certificate.get_active_finalizers
  have : qc.active_finalizers.isEmpty = false := by
    cases h : qc.active_finalizers with
    | nil => exact absurd h hne
    | cons a l => rfl
  rw [this]
  exact hr

/-- Helper: setter calls keep the bitset of the bitset-backed certificate
non-empty. -/
theorem calls_keep_nonempty (calls : List qc_call) (q : quorum_certificate)
    (hq : q.active_finalizers.empty = false) (hs : ∀ c ∈ calls, c.is_setter = true) :
    ∃ q1, q.calls calls = some q1 ∧ q1.active_finalizers.empty = false := by
  induction calls generalizing q with
  | nil => exact ⟨q, rfl, hq⟩
  | cons c cs ih =>
    have hcs : ∀ d ∈ cs, d.is_setter = true := fun d hd => hs d (List.mem_cons_of_mem _ hd)
    have hc := hs c (List.mem_cons_self _ _)
    cases c with
    | reset p n => simp [qc_call.is_setter] at hc
    | set_active_finalizers bs =>
      have hbs : bs.empty = false := by simpa [qc_call.is_setter] using hc
      have hcall : q.call (.set_active_finalizers bs) = some { q with active_finalizers := bs } := by
        simp [quorum_certificate.call, quorum_certificate.set_active_finalizers, hbs]
      rw [quorum_certificate.calls, hcall]
      exact ih _ hbs hcs
    | set_active_agg_sig sig =>
      rw [quorum_certificate.calls]
      exact ih (q.set_active_agg_sig sig) hq hcs
    | set_quorum_met =>
      rw [quorum_certificate.calls]
      exact ih q.set_quorum_met hq hcs

/-- Helper: setter calls keep the string of the string-backed certificate
non-empty and made of `'0'` and `'1'`. -/
theorem chain_calls_keep_nonempty (calls : List qc_call) (qc : eosio.chain.quorum_certificate)
    (hne : qc.active_finalizers ≠ [])
    (hch : ∀ c ∈ qc.active_finalizers, c = '0' ∨ c = '1')
    (hs : ∀ c ∈ calls, c.is_setter = true) :
    ∃ q1, chain_calls qc calls = some q1 ∧ q1.active_finalizers ≠ []
      ∧ ∀ c ∈ q1.active_finalizers, c = '0' ∨ c = '1' := by
  induction calls generalizing qc with
  | nil => exact ⟨qc, rfl, hne, hch⟩
  | cons c cs ih =>
    have hcs : ∀ d ∈ cs, d.is_setter = true := fun d hd => hs d (List.mem_cons_of_mem _ hd)
    have hc := hs c (List.mem_cons_self _ _)
    cases c with
    | reset p n => simp [qc_call.is_setter] at hc
    | set_active_finalizers bs =>
      have hbs : bs.empty = false := by simpa [qc_call.is_setter] using hc
      have hcall : chain_call qc (.set_active_finalizers bs)
          = some { qc with active_finalizers := bs.to_string } := by
        simp [chain_call, eosio.chain.quorum_certificate.set_active_finalizers, hbs]
      rw [chain_calls, hcall]
      refine ih _ ?_ (dynamic_bitset.to_string_chars bs) hcs
      intro hnil
      have hlen := dynamic_bitset.to_string_length bs
      have hnil2 : bs.to_string = [] := hnil
      have hz : bs.m_num_bits = 0 := by
        rw [← hlen, hnil2]; rfl
      simp [dynamic_bitset.empty, dynamic_bitset.size, hz] at hbs
    | set_active_agg_sig sig =>
      rw [chain_calls]
      exact ih (qc.set_active_agg_sig sig) hne hch hcs
    | set_quorum_met =>
      rw [chain_calls]
      exact ih qc.set_quorum_met hne hch hcs

end eosio.hotstuff

namespace eosio.hotstuff

open boost eosio.chain

/-- Helper: a run of `n >= 1` characters `'0'` is non-empty and made of `'0'`
and `'1'`. -/
theorem replicate_zero_chars (n : Nat) (hn : 1 ≤ n) :
    List.replicate n '0' ≠ [] ∧ ∀ c ∈ List.replicate n '0', c = '0' ∨ c = '1' := by
  constructor
  · intro h
    have := congrArg List.length h
    simp at this
    omega
  · intro c hc
    exact Or.inl (List.eq_of_mem_replicate hc)

/-- C21: for every `n >= 1`, after construction with size `n` or `reset(p, n)`
and any further sequence of `set_active_finalizers` (with a non-empty bitset),
`set_active_agg_sig` and `set_quorum_met` calls, every call succeeds and
`get_active_finalizers()` passes its assertion and returns a bitset, on the
bitset-backed and on the string-backed certificate; on a default-constructed
certificate (size 0) the asserted condition is false and the call fails. -/
theorem get_active_finalizers_assertion (q : quorum_certificate)
    (qc : eosio.chain.quorum_certificate) (p : sha256) (n : Nat) (calls : List qc_call)
    (hn : 1 ≤ n) (hs : ∀ c ∈ calls, c.is_setter = true) :
    (∃ q1, (quorum_certificate.init n).calls calls = some q1
        ∧ q1.active_finalizers.empty = false ∧ q1.get_active_finalizers.isSome = true)
      ∧ (∃ q1, (q.reset p n).calls calls = some q1
          ∧ q1.active_finalizers.empty = false ∧ q1.get_active_finalizers.isSome = true)
      ∧ (∃ q1, chain_calls (eosio.chain.quorum_certificate.init n) calls = some q1
          ∧ q1.active_finalizers.isEmpty = false ∧ q1.get_active_finalizers.isSome = true)
      ∧ (∃ q1, chain_calls (qc.reset p n) calls = some q1
          ∧ q1.active_finalizers.isEmpty = false ∧ q1.get_active_finalizers.isSome = true)
      ∧ ((quorum_certificate.init 0).active_finalizers.empty = true
          ∧ (quorum_certificate.init 0).get_active_finalizers = none)
      ∧ ((eosio.chain.quorum_certificate.init 0).active_finalizers.isEmpty = true
          ∧ (eosio.chain.quorum_certificate.init 0).get_active_finalizers = none) := by
  have hbit : ∀ q0 : quorum_certificate, q0.active_finalizers.empty = false →
      ∃ q1, q0.calls calls = some q1
        ∧ q1.active_finalizers.empty = false ∧ q1.get_active_finalizers.isSome = true := by
    intro q0 h0
    rcases calls_keep_nonempty calls q0 h0 hs with ⟨q1, hq1, hne⟩
    refine ⟨q1, hq1, hne, ?_⟩
    simp [quorum_certificate.get_active_finalizers, hne]
  have hstr : ∀ q0 : eosio.chain.quorum_certificate,
      q0.active_finalizers = List.replicate n '0' →
      ∃ q1, chain_calls q0 calls = some q1
        ∧ q1.active_finalizers.isEmpty = false ∧ q1.get_active_finalizers.isSome = true := by
    intro q0 h0
    have hz := replicate_zero_chars n hn
    rw [← h0] at hz
    rcases chain_calls_keep_nonempty calls q0 hz.1 hz.2 hs with ⟨q1, hq1, hne, hch⟩
    rcases chain_get_active_finalizers_some q1 hne hch with ⟨r, hr, _⟩
    refine ⟨q1, hq1, ?_, by rw [hr]; rfl⟩
    cases h : q1.active_finalizers with
    | nil => exact absurd h hne
    | cons a l => rfl
  have hinit : (quorum_certificate.init n).active_finalizers.empty = false := by
    have hr := dynamic_bitset.resize_empty_set (w := 32) n
    show (((dynamic_bitset.empty_set : dynamic_bitset 32).resize n).m_num_bits == 0) = false
    rw [hr.1]
    simp
    omega
  have hreset : (q.reset p n).active_finalizers.empty = false := by
    show (n == 0) = false
    simp
    omega
  exact ⟨hbit _ hinit, hbit _ hreset,
    hstr _ (chain_reset_string _ _ n), hstr _ (chain_reset_string qc p n),
    by decide, by decide⟩

/-- Witness for C21: size 3 and a sequence of three setter calls. -/
theorem get_active_finalizers_assertion_witness :
    1 ≤ 3 ∧ (∀ c ∈ example_setter_calls, c.is_setter = true)
      ∧ ((∃ q1, (quorum_certificate.init 3).calls example_setter_calls = some q1
          ∧ q1.active_finalizers.empty = false ∧ q1.get_active_finalizers.isSome = true)
        ∧ (∃ q1, (example_qc_5.reset ⟨[7]⟩ 3).calls example_setter_calls = some q1
            ∧ q1.active_finalizers.empty = false ∧ q1.get_active_finalizers.isSome = true)
        ∧ (∃ q1, chain_calls (eosio.chain.quorum_certificate.init 3) example_setter_calls
              = some q1
            ∧ q1.active_finalizers.isEmpty = false ∧ q1.get_active_finalizers.isSome = true)
        ∧ (∃ q1, chain_calls ((eosio.chain.quorum_certificate.init 0).reset ⟨[7]⟩ 3)
              example_setter_calls = some q1
            ∧ q1.active_finalizers.isEmpty = false ∧ q1.get_active_finalizers.isSome = true)
        ∧ ((quorum_certificate.init 0).active_finalizers.empty = true
            ∧ (quorum_certificate.init 0).get_active_finalizers = none)
        ∧ ((eosio.chain.quorum_certificate.init 0).active_finalizers.isEmpty = true
            ∧ (eosio.chain.quorum_certificate.init 0).get_active_finalizers = none)) :=
  ⟨by decide, by decide,
    get_active_finalizers_assertion example_qc_5 (eosio.chain.quorum_certificate.init 0) ⟨[7]⟩ 3
      example_setter_calls (by decide) (by decide)⟩

/-- C22: the string-backed certificate stores a bitset losslessly: for every
non-empty bitset `bs`, of any block type, `set_active_finalizers(bs)` succeeds,
the stored string has `bs.size()` characters, each `'0'` or `'1'`, the other
members are untouched, and `get_active_finalizers()` then returns a bitset with
the length of `bs` and the same bit at every position. -/
theorem set_active_finalizers_lossless {w : Nat} (qc : eosio.chain.quorum_certificate)
    (bs : dynamic_bitset w) (h : bs.empty = false) :
    ∃ q1, qc.set_active_finalizers bs = some q1
      ∧ q1.get_active_finalizers_string.length = bs.size
      ∧ (∀ c ∈ q1.get_active_finalizers_string, c = '0' ∨ c = '1')
      ∧ q1.get_proposal_id = qc.get_proposal_id
      ∧ q1.get_active_agg_sig = qc.get_active_agg_sig
      ∧ q1.is_quorum_met = qc.is_quorum_met
      ∧ ∃ r, q1.get_active_finalizers = some r
          ∧ r.size = bs.size
          ∧ (∀ i, i < bs.size → r.test i = bs.test i)
          ∧ r.bit_list = bs.bit_list := by
  have hset : qc.set_active_finalizers bs = some { qc with active_finalizers := bs.to_string } := by
    simp [eosio.chain.quorum_certificate.set_active_finalizers, h]
  have hsize : bs.m_num_bits ≠ 0 := by
    intro hz
    simp [dynamic_bitset.empty, dynamic_bitset.size, hz] at h
  rcases dynamic_bitset.init_from_string_to_string bs with ⟨r, hr, hrs, hbits, hlist⟩
  refine ⟨_, hset, dynamic_bitset.to_string_length bs, dynamic_bitset.to_string_chars bs,
    rfl, rfl, rfl, r, ?_, hrs, ?_, hlist⟩
  · unfold eosio.chain.quorum_certificate.get_active_finalizers
    have hne : bs.to_string.isEmpty = false := by
      have hlen := dynamic_bitset.to_string_length bs
      cases hstr : bs.to_string with
      | nil => rw [hstr] at hlen; exact absurd hlen.symm hsize
      | cons a l => rfl
    show (if (!bs.to_string.isEmpty) = true then
      dynamic_bitset.init_from_string 64 bs.to_string else none) = some r
    rw [hne]
    exact hr
  · intro i hi
    unfold dynamic_bitset.size at hrs hi
    unfold dynamic_bitset.test
    rw [hrs, if_pos hi, if_pos hi, hbits i hi]

/-- Witness for C22: a bitset over five finalizers with 32-bit blocks. -/
theorem set_active_finalizers_lossless_witness :
    example_bitset_5.empty = false
      ∧ ∃ q1, (eosio.chain.quorum_certificate.init 3).set_active_finalizers example_bitset_5
            = some q1
        ∧ q1.get_active_finalizers_string.length = example_bitset_5.size
        ∧ (∀ c ∈ q1.get_active_finalizers_string, c = '0' ∨ c = '1')
        ∧ q1.get_proposal_id = (eosio.chain.quorum_certificate.init 3).get_proposal_id
        ∧ q1.get_active_agg_sig = (eosio.chain.quorum_certificate.init 3).get_active_agg_sig
        ∧ q1.is_quorum_met = (eosio.chain.quorum_certificate.init 3).is_quorum_met
        ∧ ∃ r, q1.get_active_finalizers = some r
            ∧ r.size = example_bitset_5.size
            ∧ (∀ i, i < example_bitset_5.size → r.test i = example_bitset_5.test i)
            ∧ r.bit_list = example_bitset_5.bit_list :=
  ⟨by decide,
    set_active_finalizers_lossless (eosio.chain.quorum_certificate.init 3) example_bitset_5
      (by decide)⟩

end eosio.hotstuff

namespace eosio.hotstuff

open boost eosio.chain

/-- Helper: one admissible call keeps the two certificates in step: same
proposal id, the stored string equal to the printed bitset, same signature,
same flag. -/
theorem call_related (c : qc_call) (q1 : eosio.chain.quorum_certificate)
    (q2 : quorum_certificate) (hc : c.is_admissible = true)
    (hid : q1.proposal_id = q2.proposal_id)
    (hbits : q1.active_finalizers = q2.active_finalizers.to_string)
    (hsig : q1.active_agg_sig = q2.active_agg_sig)
    (hmet : q1.quorum_met = q2.quorum_met) :
    ∃ r1 r2, chain_call q1 c = some r1 ∧ q2.call c = some r2
      ∧ r1.proposal_id = r2.proposal_id
      ∧ r1.active_finalizers = r2.active_finalizers.to_string
      ∧ r1.active_agg_sig = r2.active_agg_sig
      ∧ r1.quorum_met = r2.quorum_met := by
  cases c with
  | reset p n =>
    have hn : n < 2 ^ 32 := by simpa [qc_call.is_admissible] using hc
    refine ⟨_, _, rfl, rfl, rfl, ?_, rfl, rfl⟩
    rw [Nat.mod_eq_of_lt hn, chain_reset_string, reset_string]
  | set_active_finalizers bs =>
    have hbs : bs.empty = false := by simpa [qc_call.is_admissible] using hc
    refine ⟨{ q1 with active_finalizers := bs.to_string }, { q2 with active_finalizers := bs },
      ?_, ?_, hid, rfl, hsig, hmet⟩
    · simp [chain_call, eosio.chain.quorum_certificate.set_active_finalizers, hbs]
    · simp [quorum_certificate.call, quorum_certificate.set_active_finalizers, hbs]
  | set_active_agg_sig sig => exact ⟨_, _, rfl, rfl, hid, hbits, rfl, hmet⟩
  | set_quorum_met => exact ⟨_, _, rfl, rfl, hid, hbits, hsig, rfl⟩

/-- Helper: a sequence of admissible calls keeps the two certificates in step. -/
theorem calls_related (calls : List qc_call) (q1 : eosio.chain.quorum_certificate)
    (q2 : quorum_certificate) (hc : ∀ c ∈ calls, c.is_admissible = true)
    (hid : q1.proposal_id = q2.proposal_id)
    (hbits : q1.active_finalizers = q2.active_finalizers.to_string)
    (hsig : q1.active_agg_sig = q2.active_agg_sig)
    (hmet : q1.quorum_met = q2.quorum_met) :
    ∃ r1 r2, chain_calls q1 calls = some r1 ∧ q2.calls calls = some r2
      ∧ r1.proposal_id = r2.proposal_id
      ∧ r1.active_finalizers = r2.active_finalizers.to_string
      ∧ r1.active_agg_sig = r2.active_agg_sig
      ∧ r1.quorum_met = r2.quorum_met := by
  induction calls generalizing q1 q2 with
  | nil => exact ⟨q1, q2, rfl, rfl, hid, hbits, hsig, hmet⟩
  | cons c cs ih =>
    rcases call_related c q1 q2 (hc c (List.mem_cons_self _ _)) hid hbits hsig hmet with
      ⟨m1, m2, h1, h2, hid', hbits', hsig', hmet'⟩
    rcases ih m1 m2 (fun d hd => hc d (List.mem_cons_of_mem _ hd)) hid' hbits' hsig' hmet' with
      ⟨r1, r2, hr1, hr2, hrest⟩
    refine ⟨r1, r2, ?_, ?_, hrest⟩
    · rw [chain_calls, h1]; exact hr1
    · rw [quorum_certificate.calls, h2]; exact hr2

/-- Helper: two certificates in step give the same bitset from
`get_active_finalizers()`: both fail the assertion, or both return a bitset and
the two have the same length and bits. -/
theorem get_active_finalizers_related (q1 : eosio.chain.quorum_certificate)
    (q2 : quorum_certificate)
    (hbits : q1.active_finalizers = q2.active_finalizers.to_string) :
    q1.get_active_finalizers.map dynamic_bitset.bit_list
      = q2.get_active_finalizers.map dynamic_bitset.bit_list := by
  unfold eosio.chain.quorum_certificate.get_active_finalizers
    quorum_certificate.get_active_finalizers
  have hlen := dynamic_bitset.to_string_length q2.active_finalizers
  by_cases hz : q2.active_finalizers.m_num_bits = 0
  · have hnil : q1.active_finalizers = [] := by
      rw [hbits]
      exact List.length_eq_zero.mp (by rw [hlen, hz])
    have he : q2.active_finalizers.empty = true := by
      simp [dynamic_bitset.empty, dynamic_bitset.size, hz]
    rw [hnil, he]
    rfl
  · have he : q2.active_finalizers.empty = false := by
      simp [dynamic_bitset.empty, dynamic_bitset.size, hz]
    have hne : q1.active_finalizers.isEmpty = false := by
      rw [hbits]
      cases hstr : q2.active_finalizers.to_string with
      | nil => rw [hstr] at hlen; exact absurd hlen.symm hz
      | cons a l => rfl
    rcases dynamic_bitset.init_from_string_to_string q2.active_finalizers with
      ⟨r, hr, _, _, hlist⟩
    rw [hne, he, hbits]
    simp only [Bool.not_false, if_true, hr, Option.map_some']
    rw [hlist]

/-- Helper: the string of a string-backed certificate constructed with a size
argument has that size reduced to 32 bits as its length. -/
theorem chain_construct_string (n : Nat) :
    (chain_construct n).get_active_finalizers_string = List.replicate (n % 2 ^ 32) '0' := by
  unfold chain_construct eosio.chain.quorum_certificate.init
    eosio.chain.quorum_certificate.get_active_finalizers_string
  exact chain_reset_string _ _ (n % 2 ^ 32)

/-- C23 (as stated, refuted): constructed with the same size `2^32`, the
string-backed certificate, whose size parameter is a `uint32_t`, holds the
empty string, and the bitset-backed one, whose size parameter is a `size_t`,
prints `2^32` characters: `get_active_finalizers_string` differs. -/
theorem observational_equivalence_counterexample :
    (chain_construct (2 ^ 32)).get_active_finalizers_string = []
      ∧ (quorum_certificate.init (2 ^ 32)).get_active_finalizers_string.length = 2 ^ 32
      ∧ (chain_construct (2 ^ 32)).get_active_finalizers_string
          ≠ (quorum_certificate.init (2 ^ 32)).get_active_finalizers_string := by
  have h1 : (chain_construct (2 ^ 32)).get_active_finalizers_string = [] := by
    rw [chain_construct_string, Nat.mod_self]
    rfl
  have h2 : (quorum_certificate.init (2 ^ 32)).get_active_finalizers_string.length
      = 2 ^ 32 := by
    rw [quorum_certificate.get_active_finalizers_string, init_string, List.length_replicate]
  refine ⟨h1, h2, ?_⟩
  intro heq
  rw [← heq, h1] at h2
  exact absurd h2 (by norm_num)

/-- C23 (amended): for sizes below `2^32`, the values the `uint32_t` size
parameter of the string-backed class holds, the string-backed and the
bitset-backed `quorum_certificate` are observationally equivalent: constructed
with the same size and given the same sequence of `reset`,
`set_active_finalizers` (non-empty), `set_active_agg_sig` and `set_quorum_met`
calls, both complete every call, and `get_proposal_id`,
`get_active_finalizers` (both fail its assertion, or both return bitsets of
the same length and bits), `get_active_finalizers_string`,
`get_active_agg_sig` and `is_quorum_met` return equal results on both. -/
theorem observational_equivalence (n : Nat) (calls : List qc_call)
    (hn : n < 2 ^ 32) (hc : ∀ c ∈ calls, c.is_admissible = true) :
    ∃ q1 q2, chain_calls (chain_construct n) calls = some q1
      ∧ (quorum_certificate.init n).calls calls = some q2
      ∧ q1.get_proposal_id = q2.get_proposal_id
      ∧ q1.get_active_finalizers.map dynamic_bitset.bit_list
          = q2.get_active_finalizers.map dynamic_bitset.bit_list
      ∧ q1.get_active_finalizers_string = q2.get_active_finalizers_string
      ∧ q1.get_active_agg_sig = q2.get_active_agg_sig
      ∧ q1.is_quorum_met = q2.is_quorum_met := by
  have hstart : (chain_construct n).active_finalizers
      = (quorum_certificate.init n).active_finalizers.to_string := by
    unfold chain_construct
    rw [Nat.mod_eq_of_lt hn, init_string]
    exact chain_reset_string _ _ n
  rcases calls_related calls (chain_construct n) (quorum_certificate.init n) hc rfl hstart
    rfl rfl with ⟨q1, q2, h1, h2, hid, hbits, hsig, hmet⟩
  exact ⟨q1, q2, h1, h2, hid, get_active_finalizers_related q1 q2 hbits, hbits, hsig, hmet⟩

/-- Witness for the amended C23: size 3 and a sequence of calls of all four
members. -/
theorem observational_equivalence_witness :
    3 < 2 ^ 32 ∧ (∀ c ∈ example_calls, c.is_admissible = true)
      ∧ ∃ q1 q2, chain_calls (chain_construct 3) example_calls = some q1
        ∧ (quorum_certificate.init 3).calls example_calls = some q2
        ∧ q1.get_proposal_id = q2.get_proposal_id
        ∧ q1.get_active_finalizers.map dynamic_bitset.bit_list
            = q2.get_active_finalizers.map dynamic_bitset.bit_list
        ∧ q1.get_active_finalizers_string = q2.get_active_finalizers_string
        ∧ q1.get_active_agg_sig = q2.get_active_agg_sig
        ∧ q1.is_quorum_met = q2.is_quorum_met :=
  ⟨by decide, by decide, observational_equivalence 3 example_calls (by decide) (by decide)⟩

end eosio.hotstuff

namespace eosio.testing.user_specified_trx_config

/-- C24: `fully_configured()` and `partially_configured()` are never both true;
`fully_configured()` holds iff the ABI path, the actions data and the actions
auths strings are all non-empty; `partially_configured()` holds iff at least
one but not all three are non-empty; both are false iff all three are empty. -/
theorem configured_spec (c : user_specified_trx_config) :
    ¬ (c.fully_configured = true ∧ c.partially_configured = true)
      ∧ (c.fully_configured = true
          ↔ (c._abi_data_file_path ≠ "" ∧ c._actions_data_json_file_or_str ≠ ""
              ∧ c._actions_auths_json_file_or_str ≠ ""))
      ∧ (c.partially_configured = true
          ↔ ((c._abi_data_file_path ≠ "" ∨ c._actions_data_json_file_or_str ≠ ""
                ∨ c._actions_auths_json_file_or_str ≠ "")
              ∧ ¬ (c._abi_data_file_path ≠ "" ∧ c._actions_data_json_file_or_str ≠ ""
                    ∧ c._actions_auths_json_file_or_str ≠ "")))
      ∧ ((c.fully_configured = false ∧ c.partially_configured = false)
          ↔ (c._abi_data_file_path = "" ∧ c._actions_data_json_file_or_str = ""
              ∧ c._actions_auths_json_file_or_str = "")) := by
  have ha := String.isEmpty_iff c._abi_data_file_path
  have hb := String.isEmpty_iff c._actions_data_json_file_or_str
  have hd := String.isEmpty_iff c._actions_auths_json_file_or_str
  unfold partially_configured fully_configured
  cases h1 : c._abi_data_file_path.isEmpty <;>
    cases h2 : c._actions_data_json_file_or_str.isEmpty <;>
    cases h3 : c._actions_auths_json_file_or_str.isEmpty <;>
    simp [h1, h2, h3] at ha hb hd <;> simp [ha, hb, hd]

end eosio.testing.user_specified_trx_config
